import Mathlib

/-!
# Verification of the transient 3D finite-difference groundwater solver `fdm3t`

Shallow embedding, over exact rational arithmetic, of `src/fdm/fdm3t.py`:

* the time-stepping loop of `fdm3t` (lines 145-196), working on vectors
  indexed by the flattened node numbering, with the sparse linear solve
  `spsolve` modelled as an oracle `xs : ℕ → Fin n → ℚ` whose defining
  property is the Prop `SolvesStep` (the reduced linear system of line 172);
* the sparse system-matrix assembly (lines 126-143) over an arbitrary
  block-centred grid, including the duplicate-summing semantics of
  `scipy.sparse.csc_matrix((data, (rows, cols)))`;
* the face-flow post-processing (lines 182-184);
* the axial (radial) half-cell resistances and conductances
  (lines 101-121), with `np.log` and `np.pi` abstracted as parameters;
* the input shape validation (lines 74-81) and the in-place clamping of
  the conductivity arrays (lines 69-72 and 83-85);
* the `Fdm3t.__init__` wrapper (lines 250-283).

Floating-point NaN (written into `Phi` at inactive cells, line 189) is
modelled by `Option ℚ` with `none` standing for NaN and NaN-propagating
arithmetic.  Division is exact rational division, faithful to the floats
whenever no denominator is zero.
-/

namespace Fdm3tModel

/-- A float value that may be NaN: `none` is NaN, `some q` a real value. -/
def FV : Type := Option ℚ

instance : DecidableEq FV := by
  unfold FV
  infer_instance

instance : Inhabited FV := ⟨(none : Option ℚ)⟩

/-- NaN-propagating addition. -/
def fvAdd : FV → FV → FV
  | some a, some b => some (a + b)
  | _, _ => none

/-- NaN-propagating subtraction. -/
def fvSub : FV → FV → FV
  | some a, some b => some (a - b)
  | _, _ => none

/-- NaN-propagating multiplication (`0 * NaN` is NaN, as for floats). -/
def fvMul : FV → FV → FV
  | some a, some b => some (a * b)
  | _, _ => none

/-- NaN-propagating division (exact for nonzero denominators). -/
def fvDiv : FV → FV → FV
  | some a, some b => some (a / b)
  | _, _ => none

/-- Read a float that is expected to be a real value (the code reads such
entries directly; `0` is a junk default never hit on the maintained
invariants). -/
def fvGet (v : FV) : ℚ := v.getD 0

/-- The per-node data of one `fdm3t` solve after flattening, exactly the
objects the time loop of lines 145-196 works with.  `SsV i` is
`Ss[i] * gr.Volume[i]`; the storage conductance of line 124 divides it by
`eps` (`Cs = Ss * gr.Volume / epsilon`). -/
structure Params (n : ℕ) where
  A : Fin n → Fin n → ℚ
  SsV : Fin n → ℚ
  FQ : Fin n → ℚ
  HI : Fin n → ℚ
  IBOUND : Fin n → ℤ
  eps : ℚ

/-- Mask `active = (IBOUND > 0)` (line 87). -/
def activeM {n : ℕ} (p : Params n) (i : Fin n) : Prop := 0 < p.IBOUND i

/-- Mask `inact = (IBOUND == 0)` (line 88). -/
def inactM {n : ℕ} (p : Params n) (i : Fin n) : Prop := p.IBOUND i = 0

/-- Mask `fxhd = (IBOUND < 0)` (line 89). -/
def fxhdM {n : ℕ} (p : Params n) (i : Fin n) : Prop := p.IBOUND i < 0

instance {n : ℕ} (p : Params n) (i : Fin n) : Decidable (activeM p i) := by
  unfold activeM; infer_instance

instance {n : ℕ} (p : Params n) (i : Fin n) : Decidable (inactM p i) := by
  unfold inactM; infer_instance

instance {n : ℕ} (p : Params n) (i : Fin n) : Decidable (fxhdM p i) := by
  unfold fxhdM; infer_instance

/-- Storage term `Cs = Ss * gr.Volume / epsilon` (line 124), per node. -/
def CsV {n : ℕ} (p : Params n) (i : Fin n) : ℚ := p.SsV i / p.eps

/-- The implicit operator `A + sp.diags(Cs / dt)` of lines 170-172. -/
def Mdt {n : ℕ} (p : Params n) (dt : ℚ) (i j : Fin n) : ℚ :=
  p.A i j + (if i = j then CsV p i / dt else 0)

/-- Right-hand side `RHS = FQ - (A + diags(Cs/dt))[:, fxhd].dot(Phi[it-1][fxhd])`
(line 170). -/
def RHSv {n : ℕ} (p : Params n) (dt : ℚ) (phiPrev : Fin n → FV) (i : Fin n) : ℚ :=
  p.FQ i - ∑ j, (if fxhdM p j then Mdt p dt i j * fvGet (phiPrev j) else 0)

/-- The reduced linear system solved by `spsolve` at one step (line 172):
`x` restricted to the active cells satisfies
`(A + diags(Cs/dt))[active][:, active] · x = RHS[active] + Cs[active]/dt * Phi[it-1][active]`. -/
def SolvesStep {n : ℕ} (p : Params n) (dt : ℚ) (phiPrev : Fin n → FV)
    (x : Fin n → ℚ) : Prop :=
  ∀ i, activeM p i →
    (∑ j, (if activeM p j then Mdt p dt i j * x j else 0)) =
      RHSv p dt phiPrev i + CsV p i / dt * fvGet (phiPrev i)

/-- The provisional head vector right after line 172: the freshly allocated
zero row of `Phi` with the solve written into the active entries; fixed-head
and inactive entries are still `0` when lines 176-184 read it. -/
def provisionalV {n : ℕ} (p : Params n) (x : Fin n → ℚ) (i : Fin n) : ℚ :=
  if activeM p i then x i else 0

/-- Net cell inflow `Q[idt] = A.dot(Phi[it])` (line 176), computed from the
provisional head. -/
def Qstep {n : ℕ} (p : Params n) (x : Fin n → ℚ) (i : Fin n) : ℚ :=
  ∑ j, p.A i j * provisionalV p x j

/-- Storage release `Qs[idt] = -Cs/dt * (Phi[it] - Phi[it-1])` (line 178),
with `Phi[it]` the provisional head; NaN entries of `Phi[it-1]` propagate. -/
def QsStep {n : ℕ} (p : Params n) (dt : ℚ) (phiPrev : Fin n → FV)
    (x : Fin n → ℚ) (i : Fin n) : FV :=
  fvMul (some (-(CsV p i / dt))) (fvSub (some (provisionalV p x i)) (phiPrev i))

/-- Finalisation of the step head (lines 186-189):
`Phi[it][active] = Phi[it-1][active] + (Phi[it]-Phi[it-1])[active]/epsilon`,
`Phi[it][fxhd] = Phi[it-1][fxhd]`, `Phi[it][inact] = np.nan`. -/
def finalizeStep {n : ℕ} (p : Params n) (phiPrev : Fin n → FV)
    (x : Fin n → ℚ) (i : Fin n) : FV :=
  if activeM p i then
    fvAdd (phiPrev i) (fvDiv (fvSub (some (provisionalV p x i)) (phiPrev i)) (some p.eps))
  else if fxhdM p i then phiPrev i
  else none

/-- The stored head rows: `Phi[0] = HI` (line 158), then one `finalizeStep`
per time step, with `xs it` the `spsolve` result of step `it`. -/
def runPhi {n : ℕ} (p : Params n) (xs : ℕ → Fin n → ℚ) : ℕ → Fin n → FV
  | 0 => fun i => some (p.HI i)
  | it + 1 => finalizeStep p (runPhi p xs it) (xs it)

/-- Step durations `np.diff(t)` (line 165). -/
def tSteps (t : List ℚ) : List ℚ :=
  (t.zip t.tail).map (fun pr => pr.2 - pr.1)

/-- The output record of `fdm3t` (line 196), restricted to the node-indexed
arrays (the face flows `Qx`, `Qy`, `Qz` are grid-shaped and are modelled
separately by `QxF`, `QyF`, `QzF` below). -/
structure FdmOut (n : ℕ) where
  t : List ℚ
  Phi : List (Fin n → FV)
  Q : List (Fin n → ℚ)
  Qs : List (Fin n → FV)

/-- The whole time loop of lines 145-196, producing the output arrays.
`xs` is the oracle for the per-step `spsolve` results. -/
def fdm3tRun {n : ℕ} (p : Params n) (xs : ℕ → Fin n → ℚ) (t : List ℚ) :
    FdmOut n :=
  let dts := tSteps t
  ⟨t,
   (List.range (dts.length + 1)).map (fun it => runPhi p xs it),
   (List.range dts.length).map (fun idt => Qstep p (xs idt)),
   dts.mapIdx (fun idt dt => QsStep p dt (runPhi p xs idt) (xs idt))⟩

/-! ## Grid layer: sparse matrix assembly (lines 126-143) and face flows
(lines 182-184)

Cells are indexed by `(l, r, k) : Fin nz × Fin ny × Fin nx` (layer, row,
column) and numbered by `gr.NOD`, the row-major flat index
`(l*ny + r)*nx + k`.  The conductance arrays `Cx`, `Cy`, `Cz` of lines
119-121 are one shorter than the grid along their axis. -/

/-- The conductance arrays of one grid (lines 119-121). -/
structure GridData (nz ny nx : ℕ) where
  Cx : Fin nz → Fin ny → Fin (nx - 1) → ℚ
  Cy : Fin nz → Fin (ny - 1) → Fin nx → ℚ
  Cz : Fin (nz - 1) → Fin ny → Fin nx → ℚ

/-- Node numbering `gr.NOD`: the row-major flat index of cell `(l, r, k)`. -/
def nod {nz ny nx : ℕ} (l : Fin nz) (r : Fin ny) (k : Fin nx) :
    Fin (nz * ny * nx) :=
  ⟨((l : ℕ) * ny + (r : ℕ)) * nx + (k : ℕ), by
    have h1 : (l : ℕ) * ny + (r : ℕ) < nz * ny :=
      calc (l : ℕ) * ny + (r : ℕ) < (l : ℕ) * ny + ny := Nat.add_lt_add_left r.isLt _
        _ = ((l : ℕ) + 1) * ny := by ring
        _ ≤ nz * ny := Nat.mul_le_mul_right ny l.isLt
    calc ((l : ℕ) * ny + (r : ℕ)) * nx + (k : ℕ)
        < ((l : ℕ) * ny + (r : ℕ)) * nx + nx := Nat.add_lt_add_left k.isLt _
      _ = ((l : ℕ) * ny + (r : ℕ) + 1) * nx := by ring
      _ ≤ nz * ny * nx := Nat.mul_le_mul_right nx h1⟩

/-- Cast an x-face index to its west (lower-`k`) cell. -/
def xlo {nx : ℕ} (f : Fin (nx - 1)) : Fin nx := ⟨(f : ℕ), by omega⟩

/-- Cast an x-face index to its east (higher-`k`) cell. -/
def xhi {nx : ℕ} (f : Fin (nx - 1)) : Fin nx := ⟨(f : ℕ) + 1, by omega⟩

/-- Cast a y-face index to its north (lower-`r`) cell. -/
def ylo {ny : ℕ} (f : Fin (ny - 1)) : Fin ny := ⟨(f : ℕ), by omega⟩

/-- Cast a y-face index to its south (higher-`r`) cell. -/
def yhi {ny : ℕ} (f : Fin (ny - 1)) : Fin ny := ⟨(f : ℕ) + 1, by omega⟩

/-- Cast a z-face index to its top (lower-`l`) cell. -/
def zlo {nz : ℕ} (f : Fin (nz - 1)) : Fin nz := ⟨(f : ℕ), by omega⟩

/-- Cast a z-face index to its bottom (higher-`l`) cell. -/
def zhi {nz : ℕ} (f : Fin (nz - 1)) : Fin nz := ⟨(f : ℕ) + 1, by omega⟩

/-- One block of the `csc_matrix((data, (rows, cols)))` construction of
lines 138-141: `scipy` sums every `(data, row, col)` triple whose row and
column indices coincide, so the entry at `(i, j)` is the sum, over the
block's face list, of the data values filed under `(i, j)`.  This block is
`(R(Cx), R(IE), R(IW))`: value `Cx[l,r,f]` at row `NOD[l,r,f+1]`, column
`NOD[l,r,f]`. -/
def A0xE {nz ny nx : ℕ} (g : GridData nz ny nx)
    (i j : Fin (nz * ny * nx)) : ℚ :=
  ∑ w : Fin nz × Fin ny × Fin (nx - 1),
    if i = nod w.1 w.2.1 (xhi w.2.2) ∧ j = nod w.1 w.2.1 (xlo w.2.2) then
      g.Cx w.1 w.2.1 w.2.2 else 0

/-- Block `(R(Cx), R(IW), R(IE))`: value `Cx[l,r,f]` at row `NOD[l,r,f]`,
column `NOD[l,r,f+1]`. -/
def A0xW {nz ny nx : ℕ} (g : GridData nz ny nx)
    (i j : Fin (nz * ny * nx)) : ℚ :=
  ∑ w : Fin nz × Fin ny × Fin (nx - 1),
    if i = nod w.1 w.2.1 (xlo w.2.2) ∧ j = nod w.1 w.2.1 (xhi w.2.2) then
      g.Cx w.1 w.2.1 w.2.2 else 0

/-- Block `(R(Cy), R(IN), R(IS))`: value `Cy[l,f,k]` at row `NOD[l,f,k]`,
column `NOD[l,f+1,k]`. -/
def A0yN {nz ny nx : ℕ} (g : GridData nz ny nx)
    (i j : Fin (nz * ny * nx)) : ℚ :=
  ∑ w : Fin nz × Fin (ny - 1) × Fin nx,
    if i = nod w.1 (ylo w.2.1) w.2.2 ∧ j = nod w.1 (yhi w.2.1) w.2.2 then
      g.Cy w.1 w.2.1 w.2.2 else 0

/-- Block `(R(Cy), R(IS), R(IN))`: value `Cy[l,f,k]` at row `NOD[l,f+1,k]`,
column `NOD[l,f,k]`. -/
def A0yS {nz ny nx : ℕ} (g : GridData nz ny nx)
    (i j : Fin (nz * ny * nx)) : ℚ :=
  ∑ w : Fin nz × Fin (ny - 1) × Fin nx,
    if i = nod w.1 (yhi w.2.1) w.2.2 ∧ j = nod w.1 (ylo w.2.1) w.2.2 then
      g.Cy w.1 w.2.1 w.2.2 else 0

/-- Block `(R(Cz), R(IB), R(IT))`: value `Cz[f,r,k]` at row `NOD[f+1,r,k]`,
column `NOD[f,r,k]`. -/
def A0zB {nz ny nx : ℕ} (g : GridData nz ny nx)
    (i j : Fin (nz * ny * nx)) : ℚ :=
  ∑ w : Fin (nz - 1) × Fin ny × Fin nx,
    if i = nod (zhi w.1) w.2.1 w.2.2 ∧ j = nod (zlo w.1) w.2.1 w.2.2 then
      g.Cz w.1 w.2.1 w.2.2 else 0

/-- Block `(R(Cz), R(IT), R(IB))`: value `Cz[f,r,k]` at row `NOD[f,r,k]`,
column `NOD[f+1,r,k]`. -/
def A0zT {nz ny nx : ℕ} (g : GridData nz ny nx)
    (i j : Fin (nz * ny * nx)) : ℚ :=
  ∑ w : Fin (nz - 1) × Fin ny × Fin nx,
    if i = nod (zlo w.1) w.2.1 w.2.2 ∧ j = nod (zhi w.1) w.2.1 w.2.2 then
      g.Cz w.1 w.2.1 w.2.2 else 0

/-- The pre-sign sparse matrix of lines 138-141: the six concatenated
blocks accumulated with `scipy`'s duplicate-summing semantics. -/
def A0 {nz ny nx : ℕ} (g : GridData nz ny nx)
    (i j : Fin (nz * ny * nx)) : ℚ :=
  A0xE g i j + A0xW g i j + A0yN g i j + A0yS g i j + A0zB g i j + A0zT g i j

/-- Line 143: `A = -A + sp.diags(np.array(A.sum(axis=1)).ravel())` — sign
flip plus the row sums of the pre-sign matrix on the diagonal. -/
def Amat {nz ny nx : ℕ} (g : GridData nz ny nx)
    (i j : Fin (nz * ny * nx)) : ℚ :=
  -(A0 g i j) + (if i = j then ∑ c, A0 g i c else 0)

/-- Line 182: `Qx[idt] = -np.diff(Phi[it].reshape(gr.shape), axis=2) * Cx`,
the face flow across the x-face `(l, r, f)` computed from a flat head
vector `phi`. -/
def QxF {nz ny nx : ℕ} (g : GridData nz ny nx) (phi : Fin (nz * ny * nx) → ℚ)
    (l : Fin nz) (r : Fin ny) (f : Fin (nx - 1)) : ℚ :=
  -(phi (nod l r (xhi f)) - phi (nod l r (xlo f))) * g.Cx l r f

/-- Line 183: `Qy[idt] = +np.diff(Phi[it].reshape(gr.shape), axis=1) * Cy`. -/
def QyF {nz ny nx : ℕ} (g : GridData nz ny nx) (phi : Fin (nz * ny * nx) → ℚ)
    (l : Fin nz) (f : Fin (ny - 1)) (k : Fin nx) : ℚ :=
  (phi (nod l (yhi f) k) - phi (nod l (ylo f) k)) * g.Cy l f k

/-- Line 184: `Qz[idt] = +np.diff(Phi[it].reshape(gr.shape), axis=0) * Cz`. -/
def QzF {nz ny nx : ℕ} (g : GridData nz ny nx) (phi : Fin (nz * ny * nx) → ℚ)
    (f : Fin (nz - 1)) (r : Fin ny) (k : Fin nx) : ℚ :=
  (phi (nod (zhi f) r k) - phi (nod (zlo f) r k)) * g.Cz f r k

/-- The signed sum of the adjacent face flows into cell `(l, r, k)`, the
quantity named by the conservation claim: `Qx` counts positive in the
`+x` direction, `Qy` positive from row `f+1` into row `f`, `Qz` positive
from layer `f+1` into layer `f` (upward), so the inflow through each of
the up to six faces enters with the matching sign. -/
def faceInflow {nz ny nx : ℕ} (g : GridData nz ny nx)
    (phi : Fin (nz * ny * nx) → ℚ) (l : Fin nz) (r : Fin ny) (k : Fin nx) : ℚ :=
  (if h : 0 < (k : ℕ) then QxF g phi l r ⟨(k : ℕ) - 1, by omega⟩ else 0)
    - (if h : (k : ℕ) + 1 < nx then QxF g phi l r ⟨(k : ℕ), by omega⟩ else 0)
  + ((if h : (r : ℕ) + 1 < ny then QyF g phi l ⟨(r : ℕ), by omega⟩ k else 0)
    - (if h : 0 < (r : ℕ) then QyF g phi l ⟨(r : ℕ) - 1, by omega⟩ k else 0))
  + ((if h : (l : ℕ) + 1 < nz then QzF g phi ⟨(l : ℕ), by omega⟩ r k else 0)
    - (if h : 0 < (l : ℕ) then QzF g phi ⟨(l : ℕ) - 1, by omega⟩ r k else 0))

/-! ## Input validation and the top-level `fdm3t` entry (lines 66-196)

The only validation in `fdm3t` is the four shape comparisons of lines
74-81, raising `AssertionError("shape of <field> {got} differs from that
of model {model}")` for `kx`, `ky`, `kz` and `Ss` in that order.  The
shapes of `FQ`, `HI`, `IBOUND` and the time vector `t` are never
inspected; they are only used, and the uses constrain the total SIZES,
not the shapes:

* line 87 `(IBOUND > 0).reshape(gr.nod,)` raises a numpy `ValueError`
  when `IBOUND.size != gr.nod`, and otherwise yields exactly the raveled
  entries (an `IBOUND` of any shape with the grid's total size passes);
* line 148 `Q = np.zeros((len(t) - 1, gr.nod))` raises a numpy
  `ValueError` (negative dimension) when `t` is empty;
* line 158 `Phi[0] = HI` assigns the raveled `HI` into a row of size
  `gr.nod`, which numpy broadcasting accepts exactly when
  `HI.size == gr.nod` or `HI.size == 1`, raising a `ValueError`
  otherwise;
* line 170 `RHS = FQ - (...)` subtracts a vector of size `gr.nod` from
  the raveled `FQ`, run once per step (so only when `len(t) >= 2`);
  numpy accepts it when `FQ.size == gr.nod` or `FQ.size == 1` and an
  exception is raised on the first step otherwise.

None of these later exceptions is the lines-74-81 `AssertionError`: they
carry no field name and none compares a shape against the grid's. -/

/-- A 3D array shape `(nz, ny, nx)`. -/
def Shape : Type := ℕ × ℕ × ℕ

instance : DecidableEq Shape := by
  unfold Shape
  infer_instance

/-- The data carried by the `AssertionError` of lines 74-81: the name of
the offending field, its shape, and the model (grid) shape. -/
structure ShapeErr where
  field : String
  got : Shape
  model : Shape
deriving DecidableEq

/-- The shape checks of lines 74-81, in source order.  Returns the first
failure, `none` when all four pass. -/
def fdm3tShapeCheck (grShape kxS kyS kzS SsS : Shape) : Option ShapeErr :=
  if kxS ≠ grShape then some ⟨"kx", kxS, grShape⟩
  else if kyS ≠ grShape then some ⟨"ky", kyS, grShape⟩
  else if kzS ≠ grShape then some ⟨"kz", kzS, grShape⟩
  else if SsS ≠ grShape then some ⟨"Ss", SsS, grShape⟩
  else none

/-- Total number of entries of an array of the given shape (`size` in
numpy, `gr.nod` for the grid's own shape). -/
def numel (s : Shape) : ℕ := s.1 * s.2.1 * s.2.2

/-- How an `fdm3t` call can fail.  `assertShape` is the deliberate
`AssertionError` of lines 74-81, carrying the field name and both shapes.
`numpyRaise` is any exception numpy itself raises further down from an
array whose size does not fit its use (the line-87 reshape of `IBOUND`,
the line-148 allocation for an empty `t`, the line-158 broadcast of `HI`,
the line-170 broadcast of `FQ`): such an exception names no field and
reports no model-shape comparison. -/
inductive FdmErr where
  | assertShape (e : ShapeErr) : FdmErr
  | numpyRaise : FdmErr
deriving DecidableEq

/-- The `fdm3t` call as seen by the caller: the shape checks of lines
74-81 run first (raising = `.error (.assertShape _)`), then the
size-constrained uses of the unchecked arrays, in source order: the
reshape of `IBOUND` at line 87 (its size must equal the grid's `numel`),
the output allocation at line 148 (`t` must be non-empty), the broadcast
of `HI` into `Phi[0]` at line 158 (size `numel grShape` or 1), and, when
at least one step runs (`2 ≤ t.length`), the broadcast of `FQ` at line
170 (size `numel grShape` or 1).  If all of these pass the solve runs to
completion.  Shapes of equal size are interchangeable here, as in the
source: every such use ravels the array first.  The caller supplies the
raveled values through `p` (for a size-1 `HI` or `FQ`, the broadcast
constant vector). -/
def fdm3tExcept {n : ℕ} (grShape kxS kyS kzS SsS FQS HIS IBS : Shape)
    (p : Params n) (xs : ℕ → Fin n → ℚ) (t : List ℚ) :
    Except FdmErr (FdmOut n) :=
  match fdm3tShapeCheck grShape kxS kyS kzS SsS with
  | some e => .error (.assertShape e)
  | none =>
    if numel IBS ≠ numel grShape then .error .numpyRaise
    else if t.length = 0 then .error .numpyRaise
    else if ¬ (numel HIS = numel grShape ∨ numel HIS = 1) then .error .numpyRaise
    else if 2 ≤ t.length ∧ ¬ (numel FQS = numel grShape ∨ numel FQS = 1) then
      .error .numpyRaise
    else .ok (fdm3tRun p xs t)

/-! ## In-place clamping of the conductivity arrays (lines 69-72, 83-85)

`kx[kx<1e-20] = 1e-20` (and likewise `ky`, `kz`) writes through into the
arrays the caller passed.  When `kxyz` is a single array rather than a
tuple, line 72 makes `kx`, `ky`, `kz` three names for that one array, so
the same array is clamped three times.  Arrays are modelled as functions
`Fin m → ℚ` over their flattened contents. -/

/-- The clamping floor `1e-20`. -/
def kfloor : ℚ := 1 / 10 ^ 20

/-- One in-place pass `k[k < 1e-20] = 1e-20` (one of lines 83-85). -/
def clampK {m : ℕ} (k : Fin m → ℚ) : Fin m → ℚ :=
  fun i => if k i < kfloor then kfloor else k i

/-- The caller's `kxyz` argument: a `(kx, ky, kz)` tuple of three arrays,
or a single array bound to all three names (lines 69-72). -/
inductive KxyzV (m : ℕ) where
  | ktriple (kx ky kz : Fin m → ℚ) : KxyzV m
  | ksingle (k : Fin m → ℚ) : KxyzV m

/-- Contents of the caller's conductivity array(s) after lines 83-85 have
run: each of the three names is clamped once; for a single shared array
the three passes hit the same storage. -/
def clampEffect {m : ℕ} : KxyzV m → KxyzV m
  | .ktriple kx ky kz => .ktriple (clampK kx) (clampK ky) (clampK kz)
  | .ksingle k => .ksingle (clampK (clampK (clampK k)))

/-- All arrays the caller passes to `fdm3t` by reference. -/
structure CallerArrays (m : ℕ) where
  kxyz : KxyzV m
  Ss : Fin m → ℚ
  FQ : Fin m → ℚ
  HI : Fin m → ℚ
  IBOUND : Fin m → ℤ
  t : List ℚ

/-- Contents of the caller's arrays after a completed `fdm3t` call: lines
83-85 clamp the conductivities in place; no other statement of
`fdm3t` assigns into an argument array (`FQ = R(FQ)`, `HI = R(HI)` and
`Cs = R(Cs)` on line 155 rebind local names, `Phi[0] = HI` on line 158
copies out of `HI`, and `x = gr.x.copy()` on line 103 copies). -/
def fdm3tPost {m : ℕ} (c : CallerArrays m) : CallerArrays m :=
  ⟨clampEffect c.kxyz, c.Ss, c.FQ, c.HI, c.IBOUND, c.t⟩

/-! ## Axial half-cell resistances and conductances (lines 101-121)

In axial mode the grid's `x` array holds the cell-boundary radii
(`nx + 1` of them) and `gr.xm` the cell-centre radii.  `np.log` and
`np.pi` are abstracted as the parameters `lg` and `pi`; the inactive-cell
masking of lines 111-116 (resistance set to `np.inf`) is rendered as the
resulting conductance being `0` whenever either cell of a face is
inactive (`1/inf = 0` exactly, also for floats). -/

/-- Line 103: `x = gr.x.copy(); x[0] = x[0] if x[0] > 0 else 0.1 * x[1]`,
with the substituted value abstracted as `proxy` (the source fixes
`proxy = 0.1 * x[1]`). -/
def axialX {nx : ℕ} (x : Fin (nx + 2) → ℚ) (proxy : ℚ) : Fin (nx + 2) → ℚ :=
  fun b => if b = 0 then (if 0 < x 0 then x 0 else proxy) else x b

/-- Line 105: `Rx1 = 1/(2 pi kx DZ) * log(x[1:] / xm)`, the outer
half-cell radial resistance of cell `c`. -/
def axialRx1 {nz ny nx : ℕ} (lg : ℚ → ℚ) (pi : ℚ)
    (kx DZ : Fin nz → Fin ny → Fin (nx + 1) → ℚ)
    (x : Fin (nx + 2) → ℚ) (xm : Fin (nx + 1) → ℚ)
    (l : Fin nz) (r : Fin ny) (c : Fin (nx + 1)) : ℚ :=
  1 / (2 * pi * kx l r c * DZ l r c) * lg (x c.succ / xm c)

/-- Line 106: `Rx2 = 1/(2 pi kx DZ) * log(xm / x[:-1])`, the inner
half-cell radial resistance of cell `c`; for `c = 0` it reads the proxy
boundary radius. -/
def axialRx2 {nz ny nx : ℕ} (lg : ℚ → ℚ) (pi : ℚ)
    (kx DZ : Fin nz → Fin ny → Fin (nx + 1) → ℚ)
    (x : Fin (nx + 2) → ℚ) (xm : Fin (nx + 1) → ℚ)
    (l : Fin nz) (r : Fin ny) (c : Fin (nx + 1)) : ℚ :=
  1 / (2 * pi * kx l r c * DZ l r c) * lg (xm c / x c.castSucc)

/-- Line 119: `Cx = 1 / (Rx1[:, :, 1:] + Rx2[:, :, :-1])` after the proxy
substitution of line 103 and the inactive masking of lines 111-112, for
the face between cells `f` and `f+1`.  Note the slicing pairs the outer
half-resistance of cell `f+1` with the inner half-resistance of cell `f`,
so `Rx2` of cell `0` (which reads the proxy) enters the face-0
conductance. -/
def axialCx {nz ny nx : ℕ} (lg : ℚ → ℚ) (pi : ℚ)
    (inactC : Fin nz → Fin ny → Fin (nx + 1) → Bool)
    (kx DZ : Fin nz → Fin ny → Fin (nx + 1) → ℚ)
    (x : Fin (nx + 2) → ℚ) (xm : Fin (nx + 1) → ℚ) (proxy : ℚ)
    (l : Fin nz) (r : Fin ny) (f : Fin nx) : ℚ :=
  let xp := axialX x proxy
  if inactC l r f.castSucc ∨ inactC l r f.succ then 0
  else 1 / (axialRx1 lg pi kx DZ xp xm l r f.succ +
            axialRx2 lg pi kx DZ xp xm l r f.castSucc)

/-! ## The `Fdm3t` class constructor (lines 201-285)

`Fdm3t.__init__` dispatches `kxyz` (lines 250-262), asserts shapes
(lines 264-268) and then immediately runs the model, passing
`epsilon=1.0` to `fdm3t` regardless of its own `epsilon` argument
(lines 280-283). -/

/-- The value-level data `Fdm3t.__init__` forwards to `fdm3t` after its
`kxyz` dispatch, flattened: everything in `Params` except the
implicitness factor. -/
structure BaseData (n : ℕ) where
  A : Fin n → Fin n → ℚ
  SsV : Fin n → ℚ
  FQ : Fin n → ℚ
  HI : Fin n → ℚ
  IBOUND : Fin n → ℤ

/-- Constructor `Fdm3t.__init__`: stores `self.out = fdm3t(..., epsilon=1.0)`
(lines 280-283).  The constructor's own `epsilon` parameter (default
`1.0`, line 204) is accepted and never used. -/
def Fdm3tInit {n : ℕ} (base : BaseData n) (xs : ℕ → Fin n → ℚ) (t : List ℚ)
    (epsilon : ℚ) : FdmOut n :=
  fdm3tRun ⟨base.A, base.SsV, base.FQ, base.HI, base.IBOUND, 1⟩ xs t

/-! ## Concrete instances used as witnesses and counterexamples

`g2` is a 1×1×2 Cartesian grid (two cells in a row) whose single x-face
has unit conductance, the assembled matrix being `[[1, -1], [-1, 1]]`;
`g1` is a single-cell grid with no faces. -/

/-- Grid of shape 1×1×2 with unit face conductance. -/
def g2 : GridData 1 1 2 := ⟨fun _ _ _ => 1, fun _ _ _ => 0, fun _ _ _ => 0⟩

/-- Grid of shape 1×1×1, no faces. -/
def g1 : GridData 1 1 1 := ⟨fun _ _ _ => 0, fun _ _ _ => 0, fun _ _ _ => 0⟩

/-- Two active cells, unit storage, source `3` in cell 0, zero heads,
`epsilon = 1`, solved with `dt = 1`: the reduced system is
`[[2, -1], [-1, 2]] x = [3, 0]`, solution `x = (2, 1)`. -/
def pC1 : Params (1 * 1 * 2) := ⟨![![1, -1], ![-1, 1]], ![1, 1], ![3, 0], ![0, 0], ![1, 1], 1⟩

/-- The exact `spsolve` result for every step of `pC1` with `dt = 1`. -/
def xsC1 : ℕ → Fin (1 * 1 * 2) → ℚ := fun _ => ![2, 1]

/-- Cell 0 fixed-head at `5`, cell 1 active. -/
def pC2W : Params (1 * 1 * 2) := ⟨![![1, -1], ![-1, 1]], ![1, 1], ![0, 0], ![5, 1], ![-1, 1], 1⟩

/-- An arbitrary solver oracle (the fixed-head invariant holds whatever
the solver returns). -/
def xsAny2 : ℕ → Fin (1 * 1 * 2) → ℚ := fun _ _ => 9

/-- Cell 0 inactive with initial head `5`, cell 1 active. -/
def pC3 : Params (1 * 1 * 2) := ⟨![![1, -1], ![-1, 1]], ![1, 1], ![0, 0], ![5, 1], ![0, 1], 1⟩

/-- One active cell, unit storage, zero source, initial head `2`. -/
def pC7 : Params (1 * 1 * 1) := ⟨![![0]], ![1], ![0], ![2], ![1], 1⟩

/-- A solver oracle returning `7`. -/
def xsC7 : ℕ → Fin (1 * 1 * 1) → ℚ := fun _ _ => 7

/-- Cell 0 fixed-head at `0`, cell 1 active with initial head `1`, unit
storage and conductance, no source: a pure decay problem. -/
def pC8 : Params (1 * 1 * 2) := ⟨![![1, -1], ![-1, 1]], ![1, 1], ![0, 0], ![0, 1], ![-1, 1], 1⟩

/-- Solve of `pC8` over one step of `dt = 2`:
`(1 + 1/2) x = (1/2) * 1`, so `x = 1/3`. -/
def xsC8a : ℕ → Fin (1 * 1 * 2) → ℚ := fun _ => ![0, 1/3]

/-- Solves of `pC8` over two steps of `dt = 1`:
`2 x = 1` gives `1/2`, then `2 x = 1/2` gives `1/4`. -/
def xsC8b : ℕ → Fin (1 * 1 * 2) → ℚ :=
  fun it => if it = 0 then ![0, 1/2] else ![0, 1/4]

/-- Zero storage: cell 0 fixed-head at `5`, cell 1 active with source `3`.
Every step solves the same steady system `1 * x = 3 + 5 = 8`. -/
def pC8W : Params (1 * 1 * 2) := ⟨![![1, -1], ![-1, 1]], ![0, 0], ![0, 3], ![5, 0], ![-1, 1], 1⟩

/-- The steady solve of `pC8W`: `x = 8` at every step. -/
def xsC8W : ℕ → Fin (1 * 1 * 2) → ℚ := fun _ => ![0, 8]

/-- Caller arrays with a single shared conductivity array `[0, 1]` whose
first entry is below the clamping floor. -/
def cArr : CallerArrays 2 :=
  ⟨.ksingle ![0, 1], ![1, 1], ![1, 1], ![1, 1], ![1, 1], [0, 1]⟩

/-! ## Summation helpers for the sparse accumulation -/

/-- Row-major bound: `a < A → b < B → a*B + b < A*B`. -/
theorem mulAddLt {A B a b : ℕ} (ha : a < A) (hb : b < B) : a * B + b < A * B :=
  calc a * B + b < a * B + B := Nat.add_lt_add_left hb _
    _ = (a + 1) * B := by ring
    _ ≤ A * B := Nat.mul_le_mul_right B ha

/-- Decomposition `a*B + b` with `b < B` is unique. -/
theorem mulAddInj {B a a' b b' : ℕ} (hb : b < B) (hb' : b' < B)
    (h : a * B + b = a' * B + b') : a = a' ∧ b = b' := by
  have hB : 0 < B := Nat.lt_of_le_of_lt (Nat.zero_le b) hb
  have hmod : b = b' := by
    have h1 : (b + a * B) % B = b := by
      rw [Nat.add_mul_mod_self_right]
      exact Nat.mod_eq_of_lt hb
    have h2 : (b' + a' * B) % B = b' := by
      rw [Nat.add_mul_mod_self_right]
      exact Nat.mod_eq_of_lt hb'
    rw [← h1, ← h2]
    congr 1
    omega
  refine ⟨?_, hmod⟩
  have : a * B = a' * B := by omega
  exact Nat.eq_of_mul_eq_mul_right hB this

/-- Injectivity of `gr.NOD`: equal node numbers mean equal cells. -/
theorem nod_inj {nz ny nx : ℕ} {l l' : Fin nz} {r r' : Fin ny}
    {k k' : Fin nx} (h : nod l r k = nod l' r' k') :
    l = l' ∧ r = r' ∧ k = k' := by
  have hv : ((l : ℕ) * ny + (r : ℕ)) * nx + (k : ℕ) =
      ((l' : ℕ) * ny + (r' : ℕ)) * nx + (k' : ℕ) := congrArg Fin.val h
  obtain ⟨h1, h2⟩ := mulAddInj k.isLt k'.isLt hv
  obtain ⟨h3, h4⟩ := mulAddInj r.isLt r'.isLt h1
  exact ⟨Fin.ext h3, Fin.ext h4, Fin.ext h2⟩


/-- Equality of `nod` values is componentwise cell equality. -/
theorem nod_eq_iff {nz ny nx : ℕ} {l l' : Fin nz} {r r' : Fin ny}
    {k k' : Fin nx} : nod l r k = nod l' r' k' ↔ l = l' ∧ r = r' ∧ k = k' := by
  constructor
  · exact nod_inj
  · rintro ⟨rfl, rfl, rfl⟩
    rfl

/-- Pairing a sparse block (row, column, data per face) against a vector:
only the faces whose row index hits `i` survive, each contributing its
data times the vector at its column index. -/
theorem sum_entry_mul {n : ℕ} {κ : Type} [Fintype κ] [DecidableEq κ]
    (row col : κ → Fin n) (dat : κ → ℚ) (i : Fin n) (f : Fin n → ℚ) :
    (∑ j, (∑ w, if i = row w ∧ j = col w then dat w else 0) * f j) =
      ∑ w, (if i = row w then dat w * f (col w) else 0) := by
  have h1 : ∀ j, (∑ w, if i = row w ∧ j = col w then dat w else 0) * f j
      = ∑ w, (if i = row w ∧ j = col w then dat w * f j else 0) := by
    intro j
    rw [Finset.sum_mul]
    refine Finset.sum_congr rfl (fun w _ => ?_)
    by_cases hw : i = row w ∧ j = col w
    · simp [hw]
    · simp [hw]
  simp only [h1]
  rw [Finset.sum_comm]
  refine Finset.sum_congr rfl (fun w _ => ?_)
  by_cases hw : i = row w
  · simp only [hw, true_and]
    rw [Finset.sum_ite_eq' Finset.univ (col w) (fun j => dat w * f j)]
    simp
  · simp [hw]

/-- A sum over `Fin N` of a single-value predicate on the underlying
natural number. -/
theorem finValSum {N : ℕ} (t : ℕ) (F : Fin N → ℚ) :
    (∑ k : Fin N, if (k : ℕ) = t then F k else 0) =
      if h : t < N then F ⟨t, h⟩ else 0 := by
  by_cases h : t < N
  · rw [dif_pos h]
    have hc : ∀ k : Fin N, ((k : ℕ) = t) = (k = ⟨t, h⟩) := by
      intro k
      apply propext
      rw [Fin.ext_iff]
    simp only [hc]
    rw [Finset.sum_ite_eq' Finset.univ (⟨t, h⟩ : Fin N) F]
    simp
  · rw [dif_neg h]
    apply Finset.sum_eq_zero
    intro k _
    rw [if_neg]
    have := k.isLt
    omega

/-- Pull a face-independent conjunct out of a sum of guarded terms. -/
theorem sum_and_left {κ : Type} [Fintype κ] (p : Prop) [Decidable p]
    (Q : κ → Prop) [DecidablePred Q] (V : κ → ℚ) :
    (∑ w, if p ∧ Q w then V w else 0) =
      if p then (∑ w, if Q w then V w else 0) else 0 := by
  by_cases hp : p
  · simp [hp]
  · simp [hp]

/-- The x-east block paired against a vector: at cell `(l, r, k)` it
contributes the west-face conductance times the vector at the west
neighbour, when `k > 0`. -/
theorem A0xE_row {nz ny nx : ℕ} (g : GridData nz ny nx) (l : Fin nz)
    (r : Fin ny) (k : Fin nx) (f : Fin (nz * ny * nx) → ℚ) :
    (∑ j, A0xE g (nod l r k) j * f j) =
      if h : 0 < (k : ℕ) then
        g.Cx l r ⟨(k : ℕ) - 1, by omega⟩ * f (nod l r ⟨(k : ℕ) - 1, by omega⟩)
      else 0 := by
  simp only [A0xE]
  rw [sum_entry_mul (fun w : Fin nz × Fin ny × Fin (nx - 1) =>
        nod w.1 w.2.1 (xhi w.2.2))
      (fun w => nod w.1 w.2.1 (xlo w.2.2)) (fun w => g.Cx w.1 w.2.1 w.2.2)
      (nod l r k) f]
  simp only [nod_eq_iff]
  rw [Fintype.sum_prod_type]
  have hstep1 : ∀ l' : Fin nz,
      (∑ w : Fin ny × Fin (nx - 1),
        if l = l' ∧ r = w.1 ∧ k = xhi w.2 then
          g.Cx l' w.1 w.2 * f (nod l' w.1 (xlo w.2)) else 0) =
      if l = l' then
        (∑ w : Fin ny × Fin (nx - 1),
          if r = w.1 ∧ k = xhi w.2 then
            g.Cx l' w.1 w.2 * f (nod l' w.1 (xlo w.2)) else 0) else 0 := by
    intro l'
    rw [sum_and_left (l = l')]
  simp only [hstep1]
  rw [Finset.sum_ite_eq Finset.univ l]
  simp only [Finset.mem_univ, if_true]
  rw [Fintype.sum_prod_type]
  have hstep2 : ∀ r' : Fin ny,
      (∑ w : Fin (nx - 1),
        if r = r' ∧ k = xhi w then
          g.Cx l r' w * f (nod l r' (xlo w)) else 0) =
      if r = r' then
        (∑ w : Fin (nx - 1),
          if k = xhi w then g.Cx l r' w * f (nod l r' (xlo w)) else 0)
      else 0 := by
    intro r'
    rw [sum_and_left (r = r')]
  simp only [hstep2]
  rw [Finset.sum_ite_eq Finset.univ r]
  simp only [Finset.mem_univ, if_true]
  by_cases h0 : 0 < (k : ℕ)
  · rw [dif_pos h0]
    have hc : ∀ w : Fin (nx - 1), (k = xhi w) = ((w : ℕ) = (k : ℕ) - 1) := by
      intro w
      apply propext
      rw [Fin.ext_iff]
      show (k : ℕ) = (w : ℕ) + 1 ↔ _
      omega
    simp only [hc]
    rw [finValSum ((k : ℕ) - 1)
        (fun w => g.Cx l r w * f (nod l r (xlo w)))]
    have hlt : (k : ℕ) - 1 < nx - 1 := by
      have := k.isLt
      omega
    rw [dif_pos hlt]
    have hx : (xlo (⟨(k : ℕ) - 1, hlt⟩ : Fin (nx - 1))) =
        (⟨(k : ℕ) - 1, by omega⟩ : Fin nx) := by
      apply Fin.ext
      rfl
    rw [hx]
  · rw [dif_neg h0]
    apply Finset.sum_eq_zero
    intro w _
    rw [if_neg]
    rw [Fin.ext_iff]
    show ¬((k : ℕ) = (w : ℕ) + 1)
    omega

/-- The x-west block paired against a vector: at cell `(l, r, k)` it
contributes the east-face conductance times the vector at the east
neighbour, when `k + 1 < nx`. -/
theorem A0xW_row {nz ny nx : ℕ} (g : GridData nz ny nx) (l : Fin nz)
    (r : Fin ny) (k : Fin nx) (f : Fin (nz * ny * nx) → ℚ) :
    (∑ j, A0xW g (nod l r k) j * f j) =
      if h : (k : ℕ) + 1 < nx then
        g.Cx l r ⟨(k : ℕ), by omega⟩ * f (nod l r ⟨(k : ℕ) + 1, by omega⟩)
      else 0 := by
  simp only [A0xW]
  rw [sum_entry_mul (fun w : Fin nz × Fin ny × Fin (nx - 1) =>
        nod w.1 w.2.1 (xlo w.2.2))
      (fun w => nod w.1 w.2.1 (xhi w.2.2)) (fun w => g.Cx w.1 w.2.1 w.2.2)
      (nod l r k) f]
  simp only [nod_eq_iff]
  rw [Fintype.sum_prod_type]
  have hstep1 : ∀ l' : Fin nz,
      (∑ w : Fin ny × Fin (nx - 1),
        if l = l' ∧ r = w.1 ∧ k = xlo w.2 then
          g.Cx l' w.1 w.2 * f (nod l' w.1 (xhi w.2)) else 0) =
      if l = l' then
        (∑ w : Fin ny × Fin (nx - 1),
          if r = w.1 ∧ k = xlo w.2 then
            g.Cx l' w.1 w.2 * f (nod l' w.1 (xhi w.2)) else 0) else 0 := by
    intro l'
    rw [sum_and_left (l = l')]
  simp only [hstep1]
  rw [Finset.sum_ite_eq Finset.univ l]
  simp only [Finset.mem_univ, if_true]
  rw [Fintype.sum_prod_type]
  have hstep2 : ∀ r' : Fin ny,
      (∑ w : Fin (nx - 1),
        if r = r' ∧ k = xlo w then
          g.Cx l r' w * f (nod l r' (xhi w)) else 0) =
      if r = r' then
        (∑ w : Fin (nx - 1),
          if k = xlo w then g.Cx l r' w * f (nod l r' (xhi w)) else 0)
      else 0 := by
    intro r'
    rw [sum_and_left (r = r')]
  simp only [hstep2]
  rw [Finset.sum_ite_eq Finset.univ r]
  simp only [Finset.mem_univ, if_true]
  have hc : ∀ w : Fin (nx - 1), (k = xlo w) = ((w : ℕ) = (k : ℕ)) := by
    intro w
    apply propext
    rw [Fin.ext_iff]
    show (k : ℕ) = (w : ℕ) ↔ _
    omega
  simp only [hc]
  rw [finValSum ((k : ℕ)) (fun w => g.Cx l r w * f (nod l r (xhi w)))]
  by_cases hk : (k : ℕ) + 1 < nx
  · rw [dif_pos (show (k : ℕ) < nx - 1 by omega), dif_pos hk]
    rfl
  · rw [dif_neg (show ¬((k : ℕ) < nx - 1) by omega), dif_neg hk]

/-- The y-north block paired against a vector: at cell `(l, r, k)` it
contributes the south-face conductance times the vector at the south
neighbour, when `r + 1 < ny`. -/
theorem A0yN_row {nz ny nx : ℕ} (g : GridData nz ny nx) (l : Fin nz)
    (r : Fin ny) (k : Fin nx) (f : Fin (nz * ny * nx) → ℚ) :
    (∑ j, A0yN g (nod l r k) j * f j) =
      if h : (r : ℕ) + 1 < ny then
        g.Cy l ⟨(r : ℕ), by omega⟩ k * f (nod l ⟨(r : ℕ) + 1, by omega⟩ k)
      else 0 := by
  simp only [A0yN]
  rw [sum_entry_mul (fun w : Fin nz × Fin (ny - 1) × Fin nx =>
        nod w.1 (ylo w.2.1) w.2.2)
      (fun w => nod w.1 (yhi w.2.1) w.2.2) (fun w => g.Cy w.1 w.2.1 w.2.2)
      (nod l r k) f]
  simp only [nod_eq_iff]
  rw [Fintype.sum_prod_type]
  have hstep1 : ∀ l' : Fin nz,
      (∑ w : Fin (ny - 1) × Fin nx,
        if l = l' ∧ r = ylo w.1 ∧ k = w.2 then
          g.Cy l' w.1 w.2 * f (nod l' (yhi w.1) w.2) else 0) =
      if l = l' then
        (∑ w : Fin (ny - 1) × Fin nx,
          if r = ylo w.1 ∧ k = w.2 then
            g.Cy l' w.1 w.2 * f (nod l' (yhi w.1) w.2) else 0) else 0 := by
    intro l'
    rw [sum_and_left (l = l')]
  simp only [hstep1]
  rw [Finset.sum_ite_eq Finset.univ l]
  simp only [Finset.mem_univ, if_true]
  rw [Fintype.sum_prod_type]
  have hstep2 : ∀ w1 : Fin (ny - 1),
      (∑ w2 : Fin nx,
        if r = ylo w1 ∧ k = w2 then
          g.Cy l w1 w2 * f (nod l (yhi w1) w2) else 0) =
      if r = ylo w1 then g.Cy l w1 k * f (nod l (yhi w1) k) else 0 := by
    intro w1
    rw [sum_and_left (r = ylo w1)]
    by_cases hr : r = ylo w1
    · rw [if_pos hr, if_pos hr]
      rw [Finset.sum_ite_eq Finset.univ k
          (fun w2 => g.Cy l w1 w2 * f (nod l (yhi w1) w2))]
      simp
    · rw [if_neg hr, if_neg hr]
  simp only [hstep2]
  by_cases h0 : (r : ℕ) + 1 < ny
  · rw [dif_pos h0]
    have hc : ∀ w : Fin (ny - 1), (r = ylo w) = ((w : ℕ) = (r : ℕ)) := by
      intro w
      apply propext
      rw [Fin.ext_iff]
      show (r : ℕ) = (w : ℕ) ↔ _
      omega
    simp only [hc]
    rw [finValSum ((r : ℕ)) (fun w => g.Cy l w k * f (nod l (yhi w) k))]
    rw [dif_pos (show (r : ℕ) < ny - 1 by omega)]
    rfl
  · rw [dif_neg h0]
    apply Finset.sum_eq_zero
    intro w _
    rw [if_neg]
    rw [Fin.ext_iff]
    show ¬((r : ℕ) = (w : ℕ))
    have := w.isLt
    omega

/-- The y-south block paired against a vector: at cell `(l, r, k)` it
contributes the north-face conductance times the vector at the north
neighbour, when `r > 0`. -/
theorem A0yS_row {nz ny nx : ℕ} (g : GridData nz ny nx) (l : Fin nz)
    (r : Fin ny) (k : Fin nx) (f : Fin (nz * ny * nx) → ℚ) :
    (∑ j, A0yS g (nod l r k) j * f j) =
      if h : 0 < (r : ℕ) then
        g.Cy l ⟨(r : ℕ) - 1, by omega⟩ k * f (nod l ⟨(r : ℕ) - 1, by omega⟩ k)
      else 0 := by
  simp only [A0yS]
  rw [sum_entry_mul (fun w : Fin nz × Fin (ny - 1) × Fin nx =>
        nod w.1 (yhi w.2.1) w.2.2)
      (fun w => nod w.1 (ylo w.2.1) w.2.2) (fun w => g.Cy w.1 w.2.1 w.2.2)
      (nod l r k) f]
  simp only [nod_eq_iff]
  rw [Fintype.sum_prod_type]
  have hstep1 : ∀ l' : Fin nz,
      (∑ w : Fin (ny - 1) × Fin nx,
        if l = l' ∧ r = yhi w.1 ∧ k = w.2 then
          g.Cy l' w.1 w.2 * f (nod l' (ylo w.1) w.2) else 0) =
      if l = l' then
        (∑ w : Fin (ny - 1) × Fin nx,
          if r = yhi w.1 ∧ k = w.2 then
            g.Cy l' w.1 w.2 * f (nod l' (ylo w.1) w.2) else 0) else 0 := by
    intro l'
    rw [sum_and_left (l = l')]
  simp only [hstep1]
  rw [Finset.sum_ite_eq Finset.univ l]
  simp only [Finset.mem_univ, if_true]
  rw [Fintype.sum_prod_type]
  have hstep2 : ∀ w1 : Fin (ny - 1),
      (∑ w2 : Fin nx,
        if r = yhi w1 ∧ k = w2 then
          g.Cy l w1 w2 * f (nod l (ylo w1) w2) else 0) =
      if r = yhi w1 then g.Cy l w1 k * f (nod l (ylo w1) k) else 0 := by
    intro w1
    rw [sum_and_left (r = yhi w1)]
    by_cases hr : r = yhi w1
    · rw [if_pos hr, if_pos hr]
      rw [Finset.sum_ite_eq Finset.univ k
          (fun w2 => g.Cy l w1 w2 * f (nod l (ylo w1) w2))]
      simp
    · rw [if_neg hr, if_neg hr]
  simp only [hstep2]
  by_cases h0 : 0 < (r : ℕ)
  · rw [dif_pos h0]
    have hc : ∀ w : Fin (ny - 1), (r = yhi w) = ((w : ℕ) = (r : ℕ) - 1) := by
      intro w
      apply propext
      rw [Fin.ext_iff]
      show (r : ℕ) = (w : ℕ) + 1 ↔ _
      omega
    simp only [hc]
    rw [finValSum ((r : ℕ) - 1) (fun w => g.Cy l w k * f (nod l (ylo w) k))]
    have hlt : (r : ℕ) - 1 < ny - 1 := by
      have := r.isLt
      omega
    rw [dif_pos hlt]
    have hx : (ylo (⟨(r : ℕ) - 1, hlt⟩ : Fin (ny - 1))) =
        (⟨(r : ℕ) - 1, by omega⟩ : Fin ny) := by
      apply Fin.ext
      rfl
    rw [hx]
  · rw [dif_neg h0]
    apply Finset.sum_eq_zero
    intro w _
    rw [if_neg]
    rw [Fin.ext_iff]
    show ¬((r : ℕ) = (w : ℕ) + 1)
    omega

/-- The z-bottom block paired against a vector: at cell `(l, r, k)` it
contributes the top-face conductance times the vector at the top
neighbour, when `l > 0`. -/
theorem A0zB_row {nz ny nx : ℕ} (g : GridData nz ny nx) (l : Fin nz)
    (r : Fin ny) (k : Fin nx) (f : Fin (nz * ny * nx) → ℚ) :
    (∑ j, A0zB g (nod l r k) j * f j) =
      if h : 0 < (l : ℕ) then
        g.Cz ⟨(l : ℕ) - 1, by omega⟩ r k * f (nod ⟨(l : ℕ) - 1, by omega⟩ r k)
      else 0 := by
  simp only [A0zB]
  rw [sum_entry_mul (fun w : Fin (nz - 1) × Fin ny × Fin nx =>
        nod (zhi w.1) w.2.1 w.2.2)
      (fun w => nod (zlo w.1) w.2.1 w.2.2) (fun w => g.Cz w.1 w.2.1 w.2.2)
      (nod l r k) f]
  simp only [nod_eq_iff]
  rw [Fintype.sum_prod_type]
  have hstep1 : ∀ w1 : Fin (nz - 1),
      (∑ w2 : Fin ny × Fin nx,
        if l = zhi w1 ∧ r = w2.1 ∧ k = w2.2 then
          g.Cz w1 w2.1 w2.2 * f (nod (zlo w1) w2.1 w2.2) else 0) =
      if l = zhi w1 then g.Cz w1 r k * f (nod (zlo w1) r k) else 0 := by
    intro w1
    rw [sum_and_left (l = zhi w1)]
    by_cases hl : l = zhi w1
    · rw [if_pos hl, if_pos hl]
      rw [Fintype.sum_prod_type]
      have hin : ∀ r' : Fin ny,
          (∑ w2 : Fin nx,
            if r = r' ∧ k = w2 then
              g.Cz w1 r' w2 * f (nod (zlo w1) r' w2) else 0) =
          if r = r' then g.Cz w1 r' k * f (nod (zlo w1) r' k) else 0 := by
        intro r'
        rw [sum_and_left (r = r')]
        by_cases hr : r = r'
        · rw [if_pos hr, if_pos hr]
          rw [Finset.sum_ite_eq Finset.univ k
              (fun w2 => g.Cz w1 r' w2 * f (nod (zlo w1) r' w2))]
          simp
        · rw [if_neg hr, if_neg hr]
      simp only [hin]
      rw [Finset.sum_ite_eq Finset.univ r
          (fun r' => g.Cz w1 r' k * f (nod (zlo w1) r' k))]
      simp
    · rw [if_neg hl, if_neg hl]
  simp only [hstep1]
  by_cases h0 : 0 < (l : ℕ)
  · rw [dif_pos h0]
    have hc : ∀ w : Fin (nz - 1), (l = zhi w) = ((w : ℕ) = (l : ℕ) - 1) := by
      intro w
      apply propext
      rw [Fin.ext_iff]
      show (l : ℕ) = (w : ℕ) + 1 ↔ _
      omega
    simp only [hc]
    rw [finValSum ((l : ℕ) - 1) (fun w => g.Cz w r k * f (nod (zlo w) r k))]
    have hlt : (l : ℕ) - 1 < nz - 1 := by
      have := l.isLt
      omega
    rw [dif_pos hlt]
    have hx : (zlo (⟨(l : ℕ) - 1, hlt⟩ : Fin (nz - 1))) =
        (⟨(l : ℕ) - 1, by omega⟩ : Fin nz) := by
      apply Fin.ext
      rfl
    rw [hx]
  · rw [dif_neg h0]
    apply Finset.sum_eq_zero
    intro w _
    rw [if_neg]
    rw [Fin.ext_iff]
    show ¬((l : ℕ) = (w : ℕ) + 1)
    omega

/-- The z-top block paired against a vector: at cell `(l, r, k)` it
contributes the bottom-face conductance times the vector at the bottom
neighbour, when `l + 1 < nz`. -/
theorem A0zT_row {nz ny nx : ℕ} (g : GridData nz ny nx) (l : Fin nz)
    (r : Fin ny) (k : Fin nx) (f : Fin (nz * ny * nx) → ℚ) :
    (∑ j, A0zT g (nod l r k) j * f j) =
      if h : (l : ℕ) + 1 < nz then
        g.Cz ⟨(l : ℕ), by omega⟩ r k * f (nod ⟨(l : ℕ) + 1, by omega⟩ r k)
      else 0 := by
  simp only [A0zT]
  rw [sum_entry_mul (fun w : Fin (nz - 1) × Fin ny × Fin nx =>
        nod (zlo w.1) w.2.1 w.2.2)
      (fun w => nod (zhi w.1) w.2.1 w.2.2) (fun w => g.Cz w.1 w.2.1 w.2.2)
      (nod l r k) f]
  simp only [nod_eq_iff]
  rw [Fintype.sum_prod_type]
  have hstep1 : ∀ w1 : Fin (nz - 1),
      (∑ w2 : Fin ny × Fin nx,
        if l = zlo w1 ∧ r = w2.1 ∧ k = w2.2 then
          g.Cz w1 w2.1 w2.2 * f (nod (zhi w1) w2.1 w2.2) else 0) =
      if l = zlo w1 then g.Cz w1 r k * f (nod (zhi w1) r k) else 0 := by
    intro w1
    rw [sum_and_left (l = zlo w1)]
    by_cases hl : l = zlo w1
    · rw [if_pos hl, if_pos hl]
      rw [Fintype.sum_prod_type]
      have hin : ∀ r' : Fin ny,
          (∑ w2 : Fin nx,
            if r = r' ∧ k = w2 then
              g.Cz w1 r' w2 * f (nod (zhi w1) r' w2) else 0) =
          if r = r' then g.Cz w1 r' k * f (nod (zhi w1) r' k) else 0 := by
        intro r'
        rw [sum_and_left (r = r')]
        by_cases hr : r = r'
        · rw [if_pos hr, if_pos hr]
          rw [Finset.sum_ite_eq Finset.univ k
              (fun w2 => g.Cz w1 r' w2 * f (nod (zhi w1) r' w2))]
          simp
        · rw [if_neg hr, if_neg hr]
      simp only [hin]
      rw [Finset.sum_ite_eq Finset.univ r
          (fun r' => g.Cz w1 r' k * f (nod (zhi w1) r' k))]
      simp
    · rw [if_neg hl, if_neg hl]
  simp only [hstep1]
  have hc : ∀ w : Fin (nz - 1), (l = zlo w) = ((w : ℕ) = (l : ℕ)) := by
    intro w
    apply propext
    rw [Fin.ext_iff]
    show (l : ℕ) = (w : ℕ) ↔ _
    omega
  simp only [hc]
  rw [finValSum ((l : ℕ)) (fun w => g.Cz w r k * f (nod (zhi w) r k))]
  by_cases hl : (l : ℕ) + 1 < nz
  · rw [dif_pos (show (l : ℕ) < nz - 1 by omega), dif_pos hl]
    rfl
  · rw [dif_neg (show ¬((l : ℕ) < nz - 1) by omega), dif_neg hl]

/-- Value of `xlo` as a natural number. -/
theorem xlo_val {nx : ℕ} (f : Fin (nx - 1)) : ((xlo f : Fin nx) : ℕ) = (f : ℕ) := rfl

/-- Value of `xhi` as a natural number. -/
theorem xhi_val {nx : ℕ} (f : Fin (nx - 1)) : ((xhi f : Fin nx) : ℕ) = (f : ℕ) + 1 := rfl

/-- Value of `ylo` as a natural number. -/
theorem ylo_val {ny : ℕ} (f : Fin (ny - 1)) : ((ylo f : Fin ny) : ℕ) = (f : ℕ) := rfl

/-- Value of `yhi` as a natural number. -/
theorem yhi_val {ny : ℕ} (f : Fin (ny - 1)) : ((yhi f : Fin ny) : ℕ) = (f : ℕ) + 1 := rfl

/-- Value of `zlo` as a natural number. -/
theorem zlo_val {nz : ℕ} (f : Fin (nz - 1)) : ((zlo f : Fin nz) : ℕ) = (f : ℕ) := rfl

/-- Value of `zhi` as a natural number. -/
theorem zhi_val {nz : ℕ} (f : Fin (nz - 1)) : ((zhi f : Fin nz) : ℕ) = (f : ℕ) + 1 := rfl

/-- The accumulated pre-sign matrix row of cell `(l, r, k)` paired against
any vector: exactly the up-to-six neighbour contributions. -/
theorem A0_row {nz ny nx : ℕ} (g : GridData nz ny nx) (l : Fin nz)
    (r : Fin ny) (k : Fin nx) (f : Fin (nz * ny * nx) → ℚ) :
    (∑ j, A0 g (nod l r k) j * f j) =
      (if h : 0 < (k : ℕ) then
        g.Cx l r ⟨(k : ℕ) - 1, by omega⟩ * f (nod l r ⟨(k : ℕ) - 1, by omega⟩)
       else 0)
      + (if h : (k : ℕ) + 1 < nx then
          g.Cx l r ⟨(k : ℕ), by omega⟩ * f (nod l r ⟨(k : ℕ) + 1, by omega⟩)
         else 0)
      + (if h : (r : ℕ) + 1 < ny then
          g.Cy l ⟨(r : ℕ), by omega⟩ k * f (nod l ⟨(r : ℕ) + 1, by omega⟩ k)
         else 0)
      + (if h : 0 < (r : ℕ) then
          g.Cy l ⟨(r : ℕ) - 1, by omega⟩ k * f (nod l ⟨(r : ℕ) - 1, by omega⟩ k)
         else 0)
      + (if h : 0 < (l : ℕ) then
          g.Cz ⟨(l : ℕ) - 1, by omega⟩ r k * f (nod ⟨(l : ℕ) - 1, by omega⟩ r k)
         else 0)
      + (if h : (l : ℕ) + 1 < nz then
          g.Cz ⟨(l : ℕ), by omega⟩ r k * f (nod ⟨(l : ℕ) + 1, by omega⟩ r k)
         else 0) := by
  have hsplit : ∀ j, A0 g (nod l r k) j * f j =
      A0xE g (nod l r k) j * f j + A0xW g (nod l r k) j * f j
      + A0yN g (nod l r k) j * f j + A0yS g (nod l r k) j * f j
      + A0zB g (nod l r k) j * f j + A0zT g (nod l r k) j * f j := by
    intro j
    simp only [A0]
    ring
  simp only [hsplit]
  rw [Finset.sum_add_distrib, Finset.sum_add_distrib, Finset.sum_add_distrib,
    Finset.sum_add_distrib, Finset.sum_add_distrib]
  rw [A0xE_row, A0xW_row, A0yN_row, A0yS_row, A0zB_row, A0zT_row]

/-- Every row of the final matrix `A` of line 143 sums to exactly zero. -/
theorem Amat_rowsum_zero {nz ny nx : ℕ} (g : GridData nz ny nx)
    (i : Fin (nz * ny * nx)) : (∑ j, Amat g i j) = 0 := by
  simp only [Amat]
  rw [Finset.sum_add_distrib]
  have h1 : (∑ j, -(A0 g i j)) = -(∑ j, A0 g i j) := by
    rw [Finset.sum_neg_distrib]
  have h2 : (∑ j : Fin (nz * ny * nx),
      if i = j then (∑ c, A0 g i c) else 0) = ∑ c, A0 g i c := by
    rw [Finset.sum_ite_eq Finset.univ i (fun _ => ∑ c, A0 g i c)]
    simp
  rw [h1, h2]
  ring

/-- Single entry of the accumulated pre-sign matrix: the indicator form of
`A0_row`. -/
theorem A0_entry {nz ny nx : ℕ} (g : GridData nz ny nx) (l : Fin nz)
    (r : Fin ny) (k : Fin nx) (b : Fin (nz * ny * nx)) :
    A0 g (nod l r k) b =
      (if h : 0 < (k : ℕ) then
        (if nod l r ⟨(k : ℕ) - 1, by omega⟩ = b then g.Cx l r ⟨(k : ℕ) - 1, by omega⟩ else 0)
       else 0)
      + (if h : (k : ℕ) + 1 < nx then
          (if nod l r ⟨(k : ℕ) + 1, by omega⟩ = b then g.Cx l r ⟨(k : ℕ), by omega⟩ else 0)
         else 0)
      + (if h : (r : ℕ) + 1 < ny then
          (if nod l ⟨(r : ℕ) + 1, by omega⟩ k = b then g.Cy l ⟨(r : ℕ), by omega⟩ k else 0)
         else 0)
      + (if h : 0 < (r : ℕ) then
          (if nod l ⟨(r : ℕ) - 1, by omega⟩ k = b then g.Cy l ⟨(r : ℕ) - 1, by omega⟩ k else 0)
         else 0)
      + (if h : 0 < (l : ℕ) then
          (if nod ⟨(l : ℕ) - 1, by omega⟩ r k = b then g.Cz ⟨(l : ℕ) - 1, by omega⟩ r k else 0)
         else 0)
      + (if h : (l : ℕ) + 1 < nz then
          (if nod ⟨(l : ℕ) + 1, by omega⟩ r k = b then g.Cz ⟨(l : ℕ), by omega⟩ r k else 0)
         else 0) := by
  have h := A0_row g l r k (fun j => if j = b then (1 : ℚ) else 0)
  have hL : (∑ j, A0 g (nod l r k) j * (if j = b then (1 : ℚ) else 0)) =
      A0 g (nod l r k) b := by
    have : ∀ j, A0 g (nod l r k) j * (if j = b then (1 : ℚ) else 0) =
        if j = b then A0 g (nod l r k) j else 0 := by
      intro j
      by_cases hj : j = b
      · simp [hj]
      · simp [hj]
    simp only [this]
    rw [Finset.sum_ite_eq' Finset.univ b (fun j => A0 g (nod l r k) j)]
    simp
  rw [hL] at h
  rw [h]
  have hterm : ∀ (c : ℚ) (m : Fin (nz * ny * nx)),
      c * (if m = b then (1 : ℚ) else 0) = (if m = b then c else 0) := by
    intro c m
    by_cases hm : m = b
    · simp [hm]
    · simp [hm]
  simp only [hterm]

/-- A sparse block contributes nothing at an index pair hit by no face. -/
theorem blockMiss {n : ℕ} {κ : Type} [Fintype κ] (row col : κ → Fin n)
    (dat : κ → ℚ) (i j : Fin n) (h : ∀ w, ¬(i = row w ∧ j = col w)) :
    (∑ w, if i = row w ∧ j = col w then dat w else 0) = 0 :=
  Finset.sum_eq_zero (fun w _ => if_neg (h w))

/-- A sparse block contributes exactly one face's data at an index pair
hit by exactly that face. -/
theorem blockHit {n : ℕ} {κ : Type} [Fintype κ] [DecidableEq κ]
    (row col : κ → Fin n) (dat : κ → ℚ) (i j : Fin n) (w0 : κ)
    (hw0 : i = row w0 ∧ j = col w0)
    (huniq : ∀ w, i = row w ∧ j = col w → w = w0) :
    (∑ w, if i = row w ∧ j = col w then dat w else 0) = dat w0 := by
  rw [Finset.sum_eq_single w0]
  · rw [if_pos hw0]
  · intro w _ hw
    rw [if_neg]
    intro hcond
    exact hw (huniq w hcond)
  · intro h
    exact absurd (Finset.mem_univ w0) h

/-- The accumulated pre-sign matrix is symmetric (each block is the
transpose of its partner block). -/
theorem A0_symm {nz ny nx : ℕ} (g : GridData nz ny nx)
    (i j : Fin (nz * ny * nx)) : A0 g i j = A0 g j i := by
  simp only [A0]
  have e1 : A0xE g i j = A0xW g j i := by
    simp only [A0xE, A0xW]
    exact Finset.sum_congr rfl (fun w _ => if_congr and_comm rfl rfl)
  have e2 : A0xW g i j = A0xE g j i := by
    simp only [A0xE, A0xW]
    exact Finset.sum_congr rfl (fun w _ => if_congr and_comm rfl rfl)
  have e3 : A0yN g i j = A0yS g j i := by
    simp only [A0yN, A0yS]
    exact Finset.sum_congr rfl (fun w _ => if_congr and_comm rfl rfl)
  have e4 : A0yS g i j = A0yN g j i := by
    simp only [A0yN, A0yS]
    exact Finset.sum_congr rfl (fun w _ => if_congr and_comm rfl rfl)
  have e5 : A0zB g i j = A0zT g j i := by
    simp only [A0zB, A0zT]
    exact Finset.sum_congr rfl (fun w _ => if_congr and_comm rfl rfl)
  have e6 : A0zT g i j = A0zB g j i := by
    simp only [A0zB, A0zT]
    exact Finset.sum_congr rfl (fun w _ => if_congr and_comm rfl rfl)
  rw [e1, e2, e3, e4, e5, e6]
  ring

/-- Value of `A0` at an east-west adjacent pair (east row, west column) is the
face conductance: only the `(R(Cx), R(IE), R(IW))` block hits. -/
theorem A0_pair_x {nz ny nx : ℕ} (g : GridData nz ny nx) (l : Fin nz)
    (r : Fin ny) (fx : Fin (nx - 1)) :
    A0 g (nod l r (xhi fx)) (nod l r (xlo fx)) = g.Cx l r fx := by
  have hxE : A0xE g (nod l r (xhi fx)) (nod l r (xlo fx)) = g.Cx l r fx := by
    simp only [A0xE]
    refine blockHit _ _ _ _ _ (l, r, fx) ⟨rfl, rfl⟩ ?_
    rintro ⟨w1, w2, w3⟩ ⟨h1, h2⟩
    dsimp only at h1 h2
    obtain ⟨e1, e2, e3⟩ := nod_inj h1
    have v := congrArg Fin.val e3
    rw [xhi_val, xhi_val] at v
    subst e1
    subst e2
    have hw : w3 = fx := Fin.ext (by omega)
    rw [hw]
  have hxW : A0xW g (nod l r (xhi fx)) (nod l r (xlo fx)) = 0 := by
    simp only [A0xW]
    refine blockMiss _ _ _ _ _ ?_
    rintro ⟨w1, w2, w3⟩ ⟨h1, h2⟩
    dsimp only at h1 h2
    obtain ⟨-, -, e3⟩ := nod_inj h1
    obtain ⟨-, -, f3⟩ := nod_inj h2
    have v1 := congrArg Fin.val e3
    have v2 := congrArg Fin.val f3
    rw [xhi_val, xlo_val] at v1
    rw [xlo_val, xhi_val] at v2
    omega
  have hyN : A0yN g (nod l r (xhi fx)) (nod l r (xlo fx)) = 0 := by
    simp only [A0yN]
    refine blockMiss _ _ _ _ _ ?_
    rintro ⟨w1, w2, w3⟩ ⟨h1, h2⟩
    dsimp only at h1 h2
    obtain ⟨-, e2, -⟩ := nod_inj h1
    obtain ⟨-, f2, -⟩ := nod_inj h2
    have v1 := congrArg Fin.val e2
    have v2 := congrArg Fin.val f2
    rw [ylo_val] at v1
    rw [yhi_val] at v2
    omega
  have hyS : A0yS g (nod l r (xhi fx)) (nod l r (xlo fx)) = 0 := by
    simp only [A0yS]
    refine blockMiss _ _ _ _ _ ?_
    rintro ⟨w1, w2, w3⟩ ⟨h1, h2⟩
    dsimp only at h1 h2
    obtain ⟨-, e2, -⟩ := nod_inj h1
    obtain ⟨-, f2, -⟩ := nod_inj h2
    have v1 := congrArg Fin.val e2
    have v2 := congrArg Fin.val f2
    rw [yhi_val] at v1
    rw [ylo_val] at v2
    omega
  have hzB : A0zB g (nod l r (xhi fx)) (nod l r (xlo fx)) = 0 := by
    simp only [A0zB]
    refine blockMiss _ _ _ _ _ ?_
    rintro ⟨w1, w2, w3⟩ ⟨h1, h2⟩
    dsimp only at h1 h2
    obtain ⟨e1, -, -⟩ := nod_inj h1
    obtain ⟨f1, -, -⟩ := nod_inj h2
    have v1 := congrArg Fin.val e1
    have v2 := congrArg Fin.val f1
    rw [zhi_val] at v1
    rw [zlo_val] at v2
    omega
  have hzT : A0zT g (nod l r (xhi fx)) (nod l r (xlo fx)) = 0 := by
    simp only [A0zT]
    refine blockMiss _ _ _ _ _ ?_
    rintro ⟨w1, w2, w3⟩ ⟨h1, h2⟩
    dsimp only at h1 h2
    obtain ⟨e1, -, -⟩ := nod_inj h1
    obtain ⟨f1, -, -⟩ := nod_inj h2
    have v1 := congrArg Fin.val e1
    have v2 := congrArg Fin.val f1
    rw [zlo_val] at v1
    rw [zhi_val] at v2
    omega
  simp only [A0, hxE, hxW, hyN, hyS, hzB, hzT]
  ring

/-- Value of `A0` at a south-north adjacent pair (north row, south column) is the
face conductance: only the `(R(Cy), R(IN), R(IS))` block hits. -/
theorem A0_pair_y {nz ny nx : ℕ} (g : GridData nz ny nx) (l : Fin nz)
    (fy : Fin (ny - 1)) (k : Fin nx) :
    A0 g (nod l (ylo fy) k) (nod l (yhi fy) k) = g.Cy l fy k := by
  have hxE : A0xE g (nod l (ylo fy) k) (nod l (yhi fy) k) = 0 := by
    simp only [A0xE]
    refine blockMiss _ _ _ _ _ ?_
    rintro ⟨w1, w2, w3⟩ ⟨h1, h2⟩
    dsimp only at h1 h2
    obtain ⟨-, -, e3⟩ := nod_inj h1
    obtain ⟨-, -, f3⟩ := nod_inj h2
    have v1 := congrArg Fin.val e3
    have v2 := congrArg Fin.val f3
    rw [xhi_val] at v1
    rw [xlo_val] at v2
    omega
  have hxW : A0xW g (nod l (ylo fy) k) (nod l (yhi fy) k) = 0 := by
    simp only [A0xW]
    refine blockMiss _ _ _ _ _ ?_
    rintro ⟨w1, w2, w3⟩ ⟨h1, h2⟩
    dsimp only at h1 h2
    obtain ⟨-, -, e3⟩ := nod_inj h1
    obtain ⟨-, -, f3⟩ := nod_inj h2
    have v1 := congrArg Fin.val e3
    have v2 := congrArg Fin.val f3
    rw [xlo_val] at v1
    rw [xhi_val] at v2
    omega
  have hyN : A0yN g (nod l (ylo fy) k) (nod l (yhi fy) k) = g.Cy l fy k := by
    simp only [A0yN]
    refine blockHit _ _ _ _ _ (l, fy, k) ⟨rfl, rfl⟩ ?_
    rintro ⟨w1, w2, w3⟩ ⟨h1, h2⟩
    dsimp only at h1 h2
    obtain ⟨e1, e2, e3⟩ := nod_inj h1
    have v := congrArg Fin.val e2
    rw [ylo_val, ylo_val] at v
    subst e1
    subst e3
    have hw : w2 = fy := Fin.ext (by omega)
    rw [hw]
  have hyS : A0yS g (nod l (ylo fy) k) (nod l (yhi fy) k) = 0 := by
    simp only [A0yS]
    refine blockMiss _ _ _ _ _ ?_
    rintro ⟨w1, w2, w3⟩ ⟨h1, h2⟩
    dsimp only at h1 h2
    obtain ⟨-, e2, -⟩ := nod_inj h1
    obtain ⟨-, f2, -⟩ := nod_inj h2
    have v1 := congrArg Fin.val e2
    have v2 := congrArg Fin.val f2
    rw [ylo_val, yhi_val] at v1
    rw [yhi_val, ylo_val] at v2
    omega
  have hzB : A0zB g (nod l (ylo fy) k) (nod l (yhi fy) k) = 0 := by
    simp only [A0zB]
    refine blockMiss _ _ _ _ _ ?_
    rintro ⟨w1, w2, w3⟩ ⟨h1, h2⟩
    dsimp only at h1 h2
    obtain ⟨e1, -, -⟩ := nod_inj h1
    obtain ⟨f1, -, -⟩ := nod_inj h2
    have v1 := congrArg Fin.val e1
    have v2 := congrArg Fin.val f1
    rw [zhi_val] at v1
    rw [zlo_val] at v2
    omega
  have hzT : A0zT g (nod l (ylo fy) k) (nod l (yhi fy) k) = 0 := by
    simp only [A0zT]
    refine blockMiss _ _ _ _ _ ?_
    rintro ⟨w1, w2, w3⟩ ⟨h1, h2⟩
    dsimp only at h1 h2
    obtain ⟨e1, -, -⟩ := nod_inj h1
    obtain ⟨f1, -, -⟩ := nod_inj h2
    have v1 := congrArg Fin.val e1
    have v2 := congrArg Fin.val f1
    rw [zlo_val] at v1
    rw [zhi_val] at v2
    omega
  simp only [A0, hxE, hxW, hyN, hyS, hzB, hzT]
  ring

/-- Value of `A0` at a bottom-top adjacent pair (bottom row, top column) is the
face conductance: only the `(R(Cz), R(IB), R(IT))` block hits. -/
theorem A0_pair_z {nz ny nx : ℕ} (g : GridData nz ny nx) (fz : Fin (nz - 1))
    (r : Fin ny) (k : Fin nx) :
    A0 g (nod (zhi fz) r k) (nod (zlo fz) r k) = g.Cz fz r k := by
  have hxE : A0xE g (nod (zhi fz) r k) (nod (zlo fz) r k) = 0 := by
    simp only [A0xE]
    refine blockMiss _ _ _ _ _ ?_
    rintro ⟨w1, w2, w3⟩ ⟨h1, h2⟩
    dsimp only at h1 h2
    obtain ⟨-, -, e3⟩ := nod_inj h1
    obtain ⟨-, -, f3⟩ := nod_inj h2
    have v1 := congrArg Fin.val e3
    have v2 := congrArg Fin.val f3
    rw [xhi_val] at v1
    rw [xlo_val] at v2
    omega
  have hxW : A0xW g (nod (zhi fz) r k) (nod (zlo fz) r k) = 0 := by
    simp only [A0xW]
    refine blockMiss _ _ _ _ _ ?_
    rintro ⟨w1, w2, w3⟩ ⟨h1, h2⟩
    dsimp only at h1 h2
    obtain ⟨-, -, e3⟩ := nod_inj h1
    obtain ⟨-, -, f3⟩ := nod_inj h2
    have v1 := congrArg Fin.val e3
    have v2 := congrArg Fin.val f3
    rw [xlo_val] at v1
    rw [xhi_val] at v2
    omega
  have hyN : A0yN g (nod (zhi fz) r k) (nod (zlo fz) r k) = 0 := by
    simp only [A0yN]
    refine blockMiss _ _ _ _ _ ?_
    rintro ⟨w1, w2, w3⟩ ⟨h1, h2⟩
    dsimp only at h1 h2
    obtain ⟨-, e2, -⟩ := nod_inj h1
    obtain ⟨-, f2, -⟩ := nod_inj h2
    have v1 := congrArg Fin.val e2
    have v2 := congrArg Fin.val f2
    rw [ylo_val] at v1
    rw [yhi_val] at v2
    omega
  have hyS : A0yS g (nod (zhi fz) r k) (nod (zlo fz) r k) = 0 := by
    simp only [A0yS]
    refine blockMiss _ _ _ _ _ ?_
    rintro ⟨w1, w2, w3⟩ ⟨h1, h2⟩
    dsimp only at h1 h2
    obtain ⟨-, e2, -⟩ := nod_inj h1
    obtain ⟨-, f2, -⟩ := nod_inj h2
    have v1 := congrArg Fin.val e2
    have v2 := congrArg Fin.val f2
    rw [yhi_val] at v1
    rw [ylo_val] at v2
    omega
  have hzB : A0zB g (nod (zhi fz) r k) (nod (zlo fz) r k) = g.Cz fz r k := by
    simp only [A0zB]
    refine blockHit _ _ _ _ _ (fz, r, k) ⟨rfl, rfl⟩ ?_
    rintro ⟨w1, w2, w3⟩ ⟨h1, h2⟩
    dsimp only at h1 h2
    obtain ⟨e1, e2, e3⟩ := nod_inj h1
    have v := congrArg Fin.val e1
    rw [zhi_val, zhi_val] at v
    subst e2
    subst e3
    have hw : w1 = fz := Fin.ext (by omega)
    rw [hw]
  have hzT : A0zT g (nod (zhi fz) r k) (nod (zlo fz) r k) = 0 := by
    simp only [A0zT]
    refine blockMiss _ _ _ _ _ ?_
    rintro ⟨w1, w2, w3⟩ ⟨h1, h2⟩
    dsimp only at h1 h2
    obtain ⟨e1, -, -⟩ := nod_inj h1
    obtain ⟨f1, -, -⟩ := nod_inj h2
    have v1 := congrArg Fin.val e1
    have v2 := congrArg Fin.val f1
    rw [zhi_val, zlo_val] at v1
    rw [zlo_val, zhi_val] at v2
    omega
  simp only [A0, hxE, hxW, hyN, hyS, hzB, hzT]
  ring

/-- Diagonal of `A0` is empty: no face relates a cell to itself. -/
theorem A0_diag_zero {nz ny nx : ℕ} (g : GridData nz ny nx) (l : Fin nz)
    (r : Fin ny) (k : Fin nx) : A0 g (nod l r k) (nod l r k) = 0 := by
  have hxE : A0xE g (nod l r k) (nod l r k) = 0 := by
    simp only [A0xE]
    refine blockMiss _ _ _ _ _ ?_
    rintro ⟨w1, w2, w3⟩ ⟨h1, h2⟩
    dsimp only at h1 h2
    obtain ⟨-, -, e3⟩ := nod_inj h1
    obtain ⟨-, -, f3⟩ := nod_inj h2
    have v1 := congrArg Fin.val e3
    have v2 := congrArg Fin.val f3
    rw [xhi_val] at v1
    rw [xlo_val] at v2
    omega
  have hxW : A0xW g (nod l r k) (nod l r k) = 0 := by
    simp only [A0xW]
    refine blockMiss _ _ _ _ _ ?_
    rintro ⟨w1, w2, w3⟩ ⟨h1, h2⟩
    dsimp only at h1 h2
    obtain ⟨-, -, e3⟩ := nod_inj h1
    obtain ⟨-, -, f3⟩ := nod_inj h2
    have v1 := congrArg Fin.val e3
    have v2 := congrArg Fin.val f3
    rw [xlo_val] at v1
    rw [xhi_val] at v2
    omega
  have hyN : A0yN g (nod l r k) (nod l r k) = 0 := by
    simp only [A0yN]
    refine blockMiss _ _ _ _ _ ?_
    rintro ⟨w1, w2, w3⟩ ⟨h1, h2⟩
    dsimp only at h1 h2
    obtain ⟨-, e2, -⟩ := nod_inj h1
    obtain ⟨-, f2, -⟩ := nod_inj h2
    have v1 := congrArg Fin.val e2
    have v2 := congrArg Fin.val f2
    rw [ylo_val] at v1
    rw [yhi_val] at v2
    omega
  have hyS : A0yS g (nod l r k) (nod l r k) = 0 := by
    simp only [A0yS]
    refine blockMiss _ _ _ _ _ ?_
    rintro ⟨w1, w2, w3⟩ ⟨h1, h2⟩
    dsimp only at h1 h2
    obtain ⟨-, e2, -⟩ := nod_inj h1
    obtain ⟨-, f2, -⟩ := nod_inj h2
    have v1 := congrArg Fin.val e2
    have v2 := congrArg Fin.val f2
    rw [yhi_val] at v1
    rw [ylo_val] at v2
    omega
  have hzB : A0zB g (nod l r k) (nod l r k) = 0 := by
    simp only [A0zB]
    refine blockMiss _ _ _ _ _ ?_
    rintro ⟨w1, w2, w3⟩ ⟨h1, h2⟩
    dsimp only at h1 h2
    obtain ⟨e1, -, -⟩ := nod_inj h1
    obtain ⟨f1, -, -⟩ := nod_inj h2
    have v1 := congrArg Fin.val e1
    have v2 := congrArg Fin.val f1
    rw [zhi_val] at v1
    rw [zlo_val] at v2
    omega
  have hzT : A0zT g (nod l r k) (nod l r k) = 0 := by
    simp only [A0zT]
    refine blockMiss _ _ _ _ _ ?_
    rintro ⟨w1, w2, w3⟩ ⟨h1, h2⟩
    dsimp only at h1 h2
    obtain ⟨e1, -, -⟩ := nod_inj h1
    obtain ⟨f1, -, -⟩ := nod_inj h2
    have v1 := congrArg Fin.val e1
    have v2 := congrArg Fin.val f1
    rw [zlo_val] at v1
    rw [zhi_val] at v2
    omega
  simp only [A0, hxE, hxW, hyN, hyS, hzB, hzT]
  ring

/-- The signed face-inflow sum of a cell expands into neighbour-head
terms minus the cell's own head times its total conductance. -/
theorem faceInflow_expand {nz ny nx : ℕ} (g : GridData nz ny nx)
    (phi : Fin (nz * ny * nx) → ℚ) (l : Fin nz) (r : Fin ny) (k : Fin nx) :
    faceInflow g phi l r k =
      ((if h : 0 < (k : ℕ) then
          g.Cx l r ⟨(k : ℕ) - 1, by omega⟩ * phi (nod l r ⟨(k : ℕ) - 1, by omega⟩)
        else 0)
      + (if h : (k : ℕ) + 1 < nx then
          g.Cx l r ⟨(k : ℕ), by omega⟩ * phi (nod l r ⟨(k : ℕ) + 1, by omega⟩)
         else 0)
      + (if h : (r : ℕ) + 1 < ny then
          g.Cy l ⟨(r : ℕ), by omega⟩ k * phi (nod l ⟨(r : ℕ) + 1, by omega⟩ k)
         else 0)
      + (if h : 0 < (r : ℕ) then
          g.Cy l ⟨(r : ℕ) - 1, by omega⟩ k * phi (nod l ⟨(r : ℕ) - 1, by omega⟩ k)
         else 0)
      + (if h : 0 < (l : ℕ) then
          g.Cz ⟨(l : ℕ) - 1, by omega⟩ r k * phi (nod ⟨(l : ℕ) - 1, by omega⟩ r k)
         else 0)
      + (if h : (l : ℕ) + 1 < nz then
          g.Cz ⟨(l : ℕ), by omega⟩ r k * phi (nod ⟨(l : ℕ) + 1, by omega⟩ r k)
         else 0))
      - ((if h : 0 < (k : ℕ) then g.Cx l r ⟨(k : ℕ) - 1, by omega⟩ else 0)
      + (if h : (k : ℕ) + 1 < nx then g.Cx l r ⟨(k : ℕ), by omega⟩ else 0)
      + (if h : (r : ℕ) + 1 < ny then g.Cy l ⟨(r : ℕ), by omega⟩ k else 0)
      + (if h : 0 < (r : ℕ) then g.Cy l ⟨(r : ℕ) - 1, by omega⟩ k else 0)
      + (if h : 0 < (l : ℕ) then g.Cz ⟨(l : ℕ) - 1, by omega⟩ r k else 0)
      + (if h : (l : ℕ) + 1 < nz then g.Cz ⟨(l : ℕ), by omega⟩ r k else 0))
        * phi (nod l r k) := by
  have hx1 : (if h : 0 < (k : ℕ) then QxF g phi l r ⟨(k : ℕ) - 1, by omega⟩ else 0) =
      (if h : 0 < (k : ℕ) then
        g.Cx l r ⟨(k : ℕ) - 1, by omega⟩ * phi (nod l r ⟨(k : ℕ) - 1, by omega⟩)
       else 0)
      - (if h : 0 < (k : ℕ) then g.Cx l r ⟨(k : ℕ) - 1, by omega⟩ else 0)
        * phi (nod l r k) := by
    by_cases h : 0 < (k : ℕ)
    · rw [dif_pos h, dif_pos h, dif_pos h]
      simp only [QxF]
      have hn1 : nod l r (xhi (⟨(k : ℕ) - 1, by omega⟩ : Fin (nx - 1))) = nod l r k := by
        rw [nod_eq_iff]
        refine ⟨rfl, rfl, Fin.ext ?_⟩
        rw [xhi_val]
        dsimp only
        omega
      have hn2 : nod l r (xlo (⟨(k : ℕ) - 1, by omega⟩ : Fin (nx - 1))) =
          nod l r (⟨(k : ℕ) - 1, by omega⟩ : Fin nx) := by
        rw [nod_eq_iff]
        exact ⟨rfl, rfl, Fin.ext rfl⟩
      rw [hn1, hn2]
      ring
    · rw [dif_neg h, dif_neg h, dif_neg h]
      ring
  have hx2 : (if h : (k : ℕ) + 1 < nx then QxF g phi l r ⟨(k : ℕ), by omega⟩ else 0) =
      -((if h : (k : ℕ) + 1 < nx then
          g.Cx l r ⟨(k : ℕ), by omega⟩ * phi (nod l r ⟨(k : ℕ) + 1, by omega⟩)
         else 0)
        - (if h : (k : ℕ) + 1 < nx then g.Cx l r ⟨(k : ℕ), by omega⟩ else 0)
          * phi (nod l r k)) := by
    by_cases h : (k : ℕ) + 1 < nx
    · rw [dif_pos h, dif_pos h, dif_pos h]
      simp only [QxF]
      have hn1 : nod l r (xhi (⟨(k : ℕ), by omega⟩ : Fin (nx - 1))) =
          nod l r (⟨(k : ℕ) + 1, by omega⟩ : Fin nx) := by
        rw [nod_eq_iff]
        exact ⟨rfl, rfl, Fin.ext rfl⟩
      have hn2 : nod l r (xlo (⟨(k : ℕ), by omega⟩ : Fin (nx - 1))) = nod l r k := by
        rw [nod_eq_iff]
        exact ⟨rfl, rfl, Fin.ext rfl⟩
      rw [hn1, hn2]
      ring
    · rw [dif_neg h, dif_neg h, dif_neg h]
      ring
  have hy1 : (if h : (r : ℕ) + 1 < ny then QyF g phi l ⟨(r : ℕ), by omega⟩ k else 0) =
      (if h : (r : ℕ) + 1 < ny then
        g.Cy l ⟨(r : ℕ), by omega⟩ k * phi (nod l ⟨(r : ℕ) + 1, by omega⟩ k)
       else 0)
      - (if h : (r : ℕ) + 1 < ny then g.Cy l ⟨(r : ℕ), by omega⟩ k else 0)
        * phi (nod l r k) := by
    by_cases h : (r : ℕ) + 1 < ny
    · rw [dif_pos h, dif_pos h, dif_pos h]
      simp only [QyF]
      have hn1 : nod l (yhi (⟨(r : ℕ), by omega⟩ : Fin (ny - 1))) k =
          nod l (⟨(r : ℕ) + 1, by omega⟩ : Fin ny) k := by
        rw [nod_eq_iff]
        exact ⟨rfl, Fin.ext rfl, rfl⟩
      have hn2 : nod l (ylo (⟨(r : ℕ), by omega⟩ : Fin (ny - 1))) k = nod l r k := by
        rw [nod_eq_iff]
        exact ⟨rfl, Fin.ext rfl, rfl⟩
      rw [hn1, hn2]
      ring
    · rw [dif_neg h, dif_neg h, dif_neg h]
      ring
  have hy2 : (if h : 0 < (r : ℕ) then QyF g phi l ⟨(r : ℕ) - 1, by omega⟩ k else 0) =
      -((if h : 0 < (r : ℕ) then
          g.Cy l ⟨(r : ℕ) - 1, by omega⟩ k * phi (nod l ⟨(r : ℕ) - 1, by omega⟩ k)
         else 0)
        - (if h : 0 < (r : ℕ) then g.Cy l ⟨(r : ℕ) - 1, by omega⟩ k else 0)
          * phi (nod l r k)) := by
    by_cases h : 0 < (r : ℕ)
    · rw [dif_pos h, dif_pos h, dif_pos h]
      simp only [QyF]
      have hn1 : nod l (yhi (⟨(r : ℕ) - 1, by omega⟩ : Fin (ny - 1))) k = nod l r k := by
        rw [nod_eq_iff]
        refine ⟨rfl, Fin.ext ?_, rfl⟩
        rw [yhi_val]
        dsimp only
        omega
      have hn2 : nod l (ylo (⟨(r : ℕ) - 1, by omega⟩ : Fin (ny - 1))) k =
          nod l (⟨(r : ℕ) - 1, by omega⟩ : Fin ny) k := by
        rw [nod_eq_iff]
        exact ⟨rfl, Fin.ext rfl, rfl⟩
      rw [hn1, hn2]
      ring
    · rw [dif_neg h, dif_neg h, dif_neg h]
      ring
  have hz1 : (if h : (l : ℕ) + 1 < nz then QzF g phi ⟨(l : ℕ), by omega⟩ r k else 0) =
      (if h : (l : ℕ) + 1 < nz then
        g.Cz ⟨(l : ℕ), by omega⟩ r k * phi (nod ⟨(l : ℕ) + 1, by omega⟩ r k)
       else 0)
      - (if h : (l : ℕ) + 1 < nz then g.Cz ⟨(l : ℕ), by omega⟩ r k else 0)
        * phi (nod l r k) := by
    by_cases h : (l : ℕ) + 1 < nz
    · rw [dif_pos h, dif_pos h, dif_pos h]
      simp only [QzF]
      have hn1 : nod (zhi (⟨(l : ℕ), by omega⟩ : Fin (nz - 1))) r k =
          nod (⟨(l : ℕ) + 1, by omega⟩ : Fin nz) r k := by
        rw [nod_eq_iff]
        exact ⟨Fin.ext rfl, rfl, rfl⟩
      have hn2 : nod (zlo (⟨(l : ℕ), by omega⟩ : Fin (nz - 1))) r k = nod l r k := by
        rw [nod_eq_iff]
        exact ⟨Fin.ext rfl, rfl, rfl⟩
      rw [hn1, hn2]
      ring
    · rw [dif_neg h, dif_neg h, dif_neg h]
      ring
  have hz2 : (if h : 0 < (l : ℕ) then QzF g phi ⟨(l : ℕ) - 1, by omega⟩ r k else 0) =
      -((if h : 0 < (l : ℕ) then
          g.Cz ⟨(l : ℕ) - 1, by omega⟩ r k * phi (nod ⟨(l : ℕ) - 1, by omega⟩ r k)
         else 0)
        - (if h : 0 < (l : ℕ) then g.Cz ⟨(l : ℕ) - 1, by omega⟩ r k else 0)
          * phi (nod l r k)) := by
    by_cases h : 0 < (l : ℕ)
    · rw [dif_pos h, dif_pos h, dif_pos h]
      simp only [QzF]
      have hn1 : nod (zhi (⟨(l : ℕ) - 1, by omega⟩ : Fin (nz - 1))) r k = nod l r k := by
        rw [nod_eq_iff]
        refine ⟨Fin.ext ?_, rfl, rfl⟩
        rw [zhi_val]
        dsimp only
        omega
      have hn2 : nod (zlo (⟨(l : ℕ) - 1, by omega⟩ : Fin (nz - 1))) r k =
          nod (⟨(l : ℕ) - 1, by omega⟩ : Fin nz) r k := by
        rw [nod_eq_iff]
        exact ⟨Fin.ext rfl, rfl, rfl⟩
      rw [hn1, hn2]
      ring
    · rw [dif_neg h, dif_neg h, dif_neg h]
      ring
  simp only [faceInflow]
  rw [hx1, hx2, hy1, hy2, hz1, hz2]
  ring

/-- The signed sum of the face flows into a cell equals minus the `A`-row
of that cell applied to the same head vector, for every head vector: the
exact linear-algebra fact behind the mass balance of `Q = A.dot(Phi)`. -/
theorem faceInflow_eq_neg_Arow {nz ny nx : ℕ} (g : GridData nz ny nx)
    (phi : Fin (nz * ny * nx) → ℚ) (l : Fin nz) (r : Fin ny) (k : Fin nx) :
    faceInflow g phi l r k = -(∑ j, Amat g (nod l r k) j * phi j) := by
  have hA : (∑ j, Amat g (nod l r k) j * phi j)
      = -(∑ j, A0 g (nod l r k) j * phi j)
        + (∑ c, A0 g (nod l r k) c) * phi (nod l r k) := by
    simp only [Amat]
    have hsplit : ∀ j, (-(A0 g (nod l r k) j)
        + (if nod l r k = j then (∑ c, A0 g (nod l r k) c) else 0)) * phi j =
        -(A0 g (nod l r k) j * phi j)
        + (if nod l r k = j then (∑ c, A0 g (nod l r k) c) * phi j else 0) := by
      intro j
      by_cases hj : nod l r k = j
      · rw [if_pos hj, if_pos hj]
        ring
      · rw [if_neg hj, if_neg hj]
        ring
    simp only [hsplit]
    rw [Finset.sum_add_distrib, Finset.sum_neg_distrib]
    rw [Finset.sum_ite_eq Finset.univ (nod l r k)
        (fun j => (∑ c, A0 g (nod l r k) c) * phi j)]
    simp
  have hone := A0_row g l r k (fun _ => (1 : ℚ))
  simp only [mul_one] at hone
  rw [hA, A0_row g l r k phi, hone, faceInflow_expand]
  ring

/-! ## Time-loop invariants and the per-step mass balance -/

/-- A fixed-head cell is not active. -/
theorem fxhd_not_active {n : ℕ} {p : Params n} {i : Fin n} (h : fxhdM p i) :
    ¬activeM p i := by
  unfold fxhdM at h
  unfold activeM
  omega

/-- An inactive cell is neither active nor fixed-head. -/
theorem inact_not_active {n : ℕ} {p : Params n} {i : Fin n} (h : inactM p i) :
    ¬activeM p i ∧ ¬fxhdM p i := by
  unfold inactM at h
  unfold activeM fxhdM
  omega

/-- Fixed-head invariance of the head recursion: a cell with `IBOUND < 0`
carries exactly its initial head at every stored time index, whatever the
solver oracle returns. -/
theorem runPhi_fxhd {n : ℕ} (p : Params n) (xs : ℕ → Fin n → ℚ) (it : ℕ)
    (i : Fin n) (h : fxhdM p i) : runPhi p xs it i = some (p.HI i) := by
  induction it with
  | zero => rfl
  | succ m ih =>
    show finalizeStep p (runPhi p xs m) (xs m) i = some (p.HI i)
    rw [finalizeStep, if_neg (fxhd_not_active h), if_pos h]
    exact ih

/-- Active cells always carry a real (non-NaN) head value. -/
theorem runPhi_active_isSome {n : ℕ} (p : Params n) (xs : ℕ → Fin n → ℚ)
    (it : ℕ) (i : Fin n) (h : activeM p i) :
    ∃ v : ℚ, runPhi p xs it i = some v := by
  induction it with
  | zero => exact ⟨p.HI i, rfl⟩
  | succ m ih =>
    obtain ⟨v, hv⟩ := ih
    refine ⟨v + (provisionalV p (xs m) i - v) / p.eps, ?_⟩
    show finalizeStep p (runPhi p xs m) (xs m) i = _
    rw [finalizeStep, if_pos h, hv]
    rfl

/-- With `epsilon = 1` the blending of line 187 is the identity: the head
carried forward at an active cell is exactly the provisional solve. -/
theorem runPhi_active_eps_one {n : ℕ} (p : Params n) (xs : ℕ → Fin n → ℚ)
    (heps : p.eps = 1) (it : ℕ) (i : Fin n) (h : activeM p i) :
    runPhi p xs (it + 1) i = some (xs it i) := by
  obtain ⟨v, hv⟩ := runPhi_active_isSome p xs it i h
  show finalizeStep p (runPhi p xs it) (xs it) i = some (xs it i)
  rw [finalizeStep, if_pos h, hv]
  show fvAdd (some v) (fvDiv (fvSub (some (provisionalV p (xs it) i)) (some v))
    (some p.eps)) = some (xs it i)
  rw [provisionalV, if_pos h, heps]
  show some (v + (xs it i - v) / 1) = some (xs it i)
  rw [div_one, add_sub_cancel]

/-- Inactive masking of the head recursion at every step index `≥ 1`. -/
theorem runPhi_inact {n : ℕ} (p : Params n) (xs : ℕ → Fin n → ℚ) (it : ℕ)
    (i : Fin n) (h : inactM p i) : runPhi p xs (it + 1) i = none := by
  obtain ⟨hna, hnf⟩ := inact_not_active (p := p) h
  show finalizeStep p (runPhi p xs it) (xs it) i = none
  rw [finalizeStep, if_neg hna, if_neg hnf]

/-- The per-step mass balance of the solver: at an active cell whose
matrix row vanishes on the fixed-head columns (no fixed-head neighbour),
the reported net inflow `Q` splits exactly into the source `FQ` plus the
storage release `Qs`. -/
theorem Qstep_eq_FQ_add_Qs {n : ℕ} (p : Params n) (dt : ℚ)
    (phiPrev : Fin n → FV) (x : Fin n → ℚ) (i : Fin n) (v : ℚ)
    (hs : SolvesStep p dt phiPrev x) (hact : activeM p i)
    (hfx0 : ∀ j, fxhdM p j → p.A i j = 0)
    (hprev : phiPrev i = some v) :
    QsStep p dt phiPrev x i = some (Qstep p x i - p.FQ i) := by
  have hIne : ∀ j, fxhdM p j → i ≠ j := by
    intro j hj he
    rw [he] at hact
    exact fxhd_not_active hj hact
  have hsi := hs i hact
  have e1 : (∑ j, (if activeM p j then Mdt p dt i j * x j else 0)) =
      Qstep p x i + CsV p i / dt * x i := by
    have hsplit : ∀ j, (if activeM p j then Mdt p dt i j * x j else 0) =
        (if activeM p j then p.A i j * x j else 0)
        + (if i = j then (if activeM p j then CsV p i / dt * x j else 0) else 0) := by
      intro j
      by_cases hj : activeM p j
      · by_cases hij : i = j
        · rw [if_pos hj, if_pos hj, if_pos hij, if_pos hj, Mdt, if_pos hij]
          ring
        · rw [if_pos hj, if_pos hj, if_neg hij, Mdt, if_neg hij]
          ring
      · by_cases hij : i = j
        · exact absurd hact (hij ▸ hj)
        · rw [if_neg hj, if_neg hj, if_neg hij]
          ring
    simp only [hsplit]
    rw [Finset.sum_add_distrib]
    have hq : (∑ j, (if activeM p j then p.A i j * x j else 0)) = Qstep p x i := by
      simp only [Qstep, provisionalV]
      refine Finset.sum_congr rfl (fun j _ => ?_)
      by_cases hj : activeM p j
      · rw [if_pos hj, if_pos hj]
      · rw [if_neg hj, if_neg hj]
        ring
    have hd : (∑ j : Fin n,
        (if i = j then (if activeM p j then CsV p i / dt * x j else 0) else 0)) =
        CsV p i / dt * x i := by
      rw [Finset.sum_ite_eq Finset.univ i
        (fun j => if activeM p j then CsV p i / dt * x j else 0)]
      simp [hact]
    rw [hq, hd]
  have e2 : RHSv p dt phiPrev i = p.FQ i := by
    simp only [RHSv]
    have hz : ∀ j, (if fxhdM p j then Mdt p dt i j * fvGet (phiPrev j) else 0) = 0 := by
      intro j
      by_cases hj : fxhdM p j
      · rw [if_pos hj, Mdt, hfx0 j hj, if_neg (hIne j hj)]
        ring
      · rw [if_neg hj]
    simp only [hz]
    simp
  rw [e1, e2, hprev] at hsi
  have hget : fvGet (some v) = v := rfl
  rw [hget] at hsi
  have hx : Qstep p x i = p.FQ i + CsV p i / dt * v - CsV p i / dt * x i := by
    linarith [hsi]
  show fvMul (some (-(CsV p i / dt))) (fvSub (some (provisionalV p x i)) (phiPrev i))
    = some (Qstep p x i - p.FQ i)
  rw [hprev, provisionalV, if_pos hact]
  show some (-(CsV p i / dt) * (x i - v)) = some (Qstep p x i - p.FQ i)
  rw [hx]
  congr 1
  ring

/-- Length of the step-duration list: one fewer than the time vector. -/
theorem tSteps_length (t : List ℚ) : (tSteps t).length = t.length - 1 := by
  simp only [tSteps, List.length_map, List.length_zip, List.length_tail]
  omega

/-- With zero storage, the step relation at any state of the head
recursion is the state-independent steady system (fixed heads never move
off their initial values, and the storage coupling vanishes). -/
theorem solvesStep_steady {n : ℕ} (p : Params n) (hss : ∀ i, p.SsV i = 0)
    (dt : ℚ) (xs : ℕ → Fin n → ℚ) (m : ℕ) (x : Fin n → ℚ) :
    SolvesStep p dt (runPhi p xs m) x ↔
      (∀ i, activeM p i →
        (∑ j, (if activeM p j then p.A i j * x j else 0)) =
          p.FQ i - ∑ j, (if fxhdM p j then p.A i j * p.HI j else 0)) := by
  have hCs : ∀ i, CsV p i = 0 := by
    intro i
    rw [CsV, hss]
    simp
  have hM : ∀ i j, Mdt p dt i j = p.A i j := by
    intro i j
    rw [Mdt, hCs]
    simp
  unfold SolvesStep RHSv
  refine forall_congr' (fun i => imp_congr_right (fun hi => ?_))
  simp only [hM, hCs, zero_div, zero_mul, add_zero]
  have hfix : ∀ j, (if fxhdM p j then p.A i j * fvGet (runPhi p xs m j) else 0) =
      (if fxhdM p j then p.A i j * p.HI j else 0) := by
    intro j
    by_cases hj : fxhdM p j
    · rw [if_pos hj, if_pos hj, runPhi_fxhd p xs m j hj]
      rfl
    · rw [if_neg hj, if_neg hj]
  have hsum : (∑ j, (if fxhdM p j then p.A i j * fvGet (runPhi p xs m j) else 0))
      = ∑ j, (if fxhdM p j then p.A i j * p.HI j else 0) :=
    Finset.sum_congr rfl (fun j _ => hfix j)
  rw [hsum]

/-- Binary expansion of a sum over the two-cell grid's node set. -/
theorem sum_fin_two {M : Type} [AddCommMonoid M] (f : Fin (1 * 1 * 2) → M) :
    (∑ j, f j) = f 0 + f 1 := Fin.sum_univ_two f

/-- Expansion of a sum over the one-cell grid's node set. -/
theorem sum_fin_one {M : Type} [AddCommMonoid M] (f : Fin (1 * 1 * 1) → M) :
    (∑ j, f j) = f 0 := Fin.sum_univ_one f

/-- The assembled matrix of the concrete grid `g2` is
`[[1, -1], [-1, 1]]`. -/
theorem Amat_g2_eq : Amat g2 = ![![1, -1], ![-1, 1]] := by
  funext i j
  fin_cases i <;> fin_cases j <;>
    first
    | (norm_num [Amat, A0, A0xE, A0xW, A0yN, A0yS, A0zB, A0zT, g2, nod, xlo, xhi,
        Fintype.sum_prod_type, Fin.sum_univ_two, Fin.sum_univ_one, Fin.ext_iff]
       decide)
    | norm_num [Amat, A0, A0xE, A0xW, A0yN, A0yS, A0zB, A0zT, g2, nod, xlo, xhi,
        Fintype.sum_prod_type, Fin.sum_univ_two, Fin.sum_univ_one, Fin.ext_iff]

/-- Off-diagonal entries of the final matrix carry only the sign-flipped
accumulated conductances (the diagonal correction of line 143 does not
touch them). -/
theorem Amat_entry_offdiag {nz ny nx : ℕ} (g : GridData nz ny nx)
    {i j : Fin (nz * ny * nx)} (h : i ≠ j) : Amat g i j = -(A0 g i j) := by
  rw [Amat, if_neg h, add_zero]

/-- Diagonal entry of the final matrix: the sum of the conductances of
the cell's up-to-six faces. -/
theorem Amat_diag_eq {nz ny nx : ℕ} (g : GridData nz ny nx) (l : Fin nz)
    (r : Fin ny) (k : Fin nx) :
    Amat g (nod l r k) (nod l r k) =
      (if h : 0 < (k : ℕ) then g.Cx l r ⟨(k : ℕ) - 1, by omega⟩ else 0)
      + (if h : (k : ℕ) + 1 < nx then g.Cx l r ⟨(k : ℕ), by omega⟩ else 0)
      + (if h : (r : ℕ) + 1 < ny then g.Cy l ⟨(r : ℕ), by omega⟩ k else 0)
      + (if h : 0 < (r : ℕ) then g.Cy l ⟨(r : ℕ) - 1, by omega⟩ k else 0)
      + (if h : 0 < (l : ℕ) then g.Cz ⟨(l : ℕ) - 1, by omega⟩ r k else 0)
      + (if h : (l : ℕ) + 1 < nz then g.Cz ⟨(l : ℕ), by omega⟩ r k else 0) := by
  rw [Amat, if_pos rfl, A0_diag_zero]
  have hone := A0_row g l r k (fun _ => (1 : ℚ))
  simp only [mul_one] at hone
  rw [hone]
  ring

/-! ## Claims -/

/-- C2 (confirmed): for every solve and every cell with `IBOUND < 0`
(fixed-head), the head `Φ` at that cell equals its initial value `HI`
exactly at every time index, whatever the per-step linear solver
returns — `Phi[0] = HI` and line 188 copies the previous value forward
after every step. -/
theorem C2_fixed_head_invariance {n : ℕ} (p : Params n)
    (xs : ℕ → Fin n → ℚ) (it : ℕ) (i : Fin n) (h : fxhdM p i) :
    runPhi p xs it i = some (p.HI i) :=
  runPhi_fxhd p xs it i h

/-- C2 witness: in the two-cell run with cell 0 fixed at head `5`, the
stored head at cell 0 after three steps is still exactly `5`. -/
theorem C2_fixed_head_invariance_witness :
    fxhdM pC2W 0 ∧ runPhi pC2W xsAny2 3 0 = some (pC2W.HI 0) :=
  ⟨by norm_num [fxhdM, pC2W],
   C2_fixed_head_invariance pC2W xsAny2 3 0 (by norm_num [fxhdM, pC2W])⟩

/-- C3 counterexample: the claim "`Φ` at an inactive cell is NaN at every
time index, including `Φ[0]`" is false: `Phi[0] = HI` (line 158) is never
masked, so the inactive cell 0 of `pC3` holds its initial head `5`, not
NaN, at time index 0. -/
theorem C3_counterexample :
    inactM pC3 0 ∧ pC3.HI 0 = 5 ∧ runPhi pC3 xsAny2 0 0 = some 5 ∧
      runPhi pC3 xsAny2 0 0 ≠ none := by
  refine ⟨by norm_num [inactM, pC3], rfl, rfl, ?_⟩
  intro h
  exact Option.noConfusion h

/-- C3 (amended): `Φ` at a cell with `IBOUND = 0` is NaN at every time
index `≥ 1` (line 189 masks after every step), while `Φ[0]` at that cell
is the unmasked initial head `HI`. -/
theorem C3_inactive_masking_amended {n : ℕ} (p : Params n)
    (xs : ℕ → Fin n → ℚ) (it : ℕ) (i : Fin n) (h : inactM p i) :
    runPhi p xs (it + 1) i = none ∧ runPhi p xs 0 i = some (p.HI i) :=
  ⟨runPhi_inact p xs it i h, rfl⟩

/-- C3 witness: the inactive cell 0 of `pC3` is NaN at time index 1 and
holds `HI` at time index 0. -/
theorem C3_inactive_masking_witness :
    inactM pC3 0 ∧ runPhi pC3 xsAny2 1 0 = none ∧
      runPhi pC3 xsAny2 0 0 = some (pC3.HI 0) := by
  have h : inactM pC3 0 := by norm_num [inactM, pC3]
  exact ⟨h, (C3_inactive_masking_amended pC3 xsAny2 0 0 h).1,
    (C3_inactive_masking_amended pC3 xsAny2 0 0 h).2⟩

/-- C4 (confirmed): for every grid and conductance arrays, the assembled
matrix `A` has, at every adjacent cell pair in each direction and both
orientations, the off-diagonal entry minus the inter-cell conductance;
the diagonal entry is the sum of the cell's face conductances; and every
row sums to exactly zero.  The entries are accumulated by summation over
the six concatenated sparse blocks (`A0`), the duplicate-summing
semantics of `scipy.sparse.csc_matrix`. -/
theorem C4_system_matrix {nz ny nx : ℕ} (g : GridData nz ny nx) :
    (∀ (l : Fin nz) (r : Fin ny) (fx : Fin (nx - 1)),
      Amat g (nod l r (xhi fx)) (nod l r (xlo fx)) = -(g.Cx l r fx) ∧
      Amat g (nod l r (xlo fx)) (nod l r (xhi fx)) = -(g.Cx l r fx))
    ∧ (∀ (l : Fin nz) (fy : Fin (ny - 1)) (k : Fin nx),
      Amat g (nod l (ylo fy) k) (nod l (yhi fy) k) = -(g.Cy l fy k) ∧
      Amat g (nod l (yhi fy) k) (nod l (ylo fy) k) = -(g.Cy l fy k))
    ∧ (∀ (fz : Fin (nz - 1)) (r : Fin ny) (k : Fin nx),
      Amat g (nod (zhi fz) r k) (nod (zlo fz) r k) = -(g.Cz fz r k) ∧
      Amat g (nod (zlo fz) r k) (nod (zhi fz) r k) = -(g.Cz fz r k))
    ∧ (∀ (l : Fin nz) (r : Fin ny) (k : Fin nx),
      Amat g (nod l r k) (nod l r k) =
        (if h : 0 < (k : ℕ) then g.Cx l r ⟨(k : ℕ) - 1, by omega⟩ else 0)
        + (if h : (k : ℕ) + 1 < nx then g.Cx l r ⟨(k : ℕ), by omega⟩ else 0)
        + (if h : (r : ℕ) + 1 < ny then g.Cy l ⟨(r : ℕ), by omega⟩ k else 0)
        + (if h : 0 < (r : ℕ) then g.Cy l ⟨(r : ℕ) - 1, by omega⟩ k else 0)
        + (if h : 0 < (l : ℕ) then g.Cz ⟨(l : ℕ) - 1, by omega⟩ r k else 0)
        + (if h : (l : ℕ) + 1 < nz then g.Cz ⟨(l : ℕ), by omega⟩ r k else 0))
    ∧ (∀ i, (∑ j, Amat g i j) = 0) := by
  refine ⟨?_, ?_, ?_, fun l r k => Amat_diag_eq g l r k, Amat_rowsum_zero g⟩
  · intro l r fx
    have hne : nod l r (xhi fx) ≠ nod l r (xlo fx) := by
      intro he
      obtain ⟨-, -, hk⟩ := nod_inj he
      have hv := congrArg Fin.val hk
      rw [xhi_val, xlo_val] at hv
      omega
    constructor
    · rw [Amat_entry_offdiag g hne, A0_pair_x]
    · rw [Amat_entry_offdiag g (Ne.symm hne), A0_symm, A0_pair_x]
  · intro l fy k
    have hne : nod l (ylo fy) k ≠ nod l (yhi fy) k := by
      intro he
      obtain ⟨-, hr, -⟩ := nod_inj he
      have hv := congrArg Fin.val hr
      rw [ylo_val, yhi_val] at hv
      omega
    constructor
    · rw [Amat_entry_offdiag g hne, A0_pair_y]
    · rw [Amat_entry_offdiag g (Ne.symm hne), A0_symm, A0_pair_y]
  · intro fz r k
    have hne : nod (zhi fz) r k ≠ nod (zlo fz) r k := by
      intro he
      obtain ⟨hl, -, -⟩ := nod_inj he
      have hv := congrArg Fin.val hl
      rw [zhi_val, zlo_val] at hv
      omega
    constructor
    · rw [Amat_entry_offdiag g hne, A0_pair_z]
    · rw [Amat_entry_offdiag g (Ne.symm hne), A0_symm, A0_pair_z]

/-- C1 counterexample: the claimed identity "face inflow + FQ − Qs ≈ Q"
fails far beyond any solver tolerance on the two-cell run `pC1` (all
cells active, exact solve): at cell 0 the face inflow is `-1`, `FQ = 3`,
`Qs = -2` and `Q = 1`, so the claimed left side is `4` while `Q = 1`, a
violation of size `3`. -/
theorem C1_counterexample :
    SolvesStep pC1 1 (runPhi pC1 xsC1 0) (xsC1 0)
    ∧ pC1.A = Amat g2
    ∧ faceInflow g2 (provisionalV pC1 (xsC1 0)) 0 0 0 = -1
    ∧ pC1.FQ (nod 0 0 0) = 3
    ∧ QsStep pC1 1 (runPhi pC1 xsC1 0) (xsC1 0) (nod 0 0 0) = some (-2)
    ∧ Qstep pC1 (xsC1 0) (nod 0 0 0) = 1
    ∧ (-1 : ℚ) + 3 - (-2) = 4
    ∧ ¬(|(4 : ℚ) - 1| ≤ 1 / 1000000 * |(1 : ℚ)|) := by
  refine ⟨?_, Amat_g2_eq.symm, ?_, rfl, ?_, ?_, by norm_num, by norm_num⟩
  · intro i hi
    revert hi
    fin_cases i <;>
      norm_num [SolvesStep, Mdt, RHSv, CsV, provisionalV, activeM, fxhdM,
        runPhi, fvGet, pC1, xsC1, sum_fin_two]
  · norm_num [faceInflow, QxF, QyF, QzF, provisionalV, activeM, g2, nod,
      xlo, xhi, pC1, xsC1]
  · norm_num [QsStep, CsV, provisionalV, activeM, runPhi, fvMul, fvSub,
      pC1, xsC1, nod]
  · norm_num [Qstep, provisionalV, activeM, pC1, xsC1, sum_fin_two, nod]

/-- C1 (amended): for every grid, every exact per-step solve, every
active cell with no fixed-head neighbour (its matrix row vanishes on the
fixed-head columns) and a real previous head: the signed sum of the
adjacent face flows into the cell equals minus the reported net inflow
`Q` exactly, and `Q` equals the source `FQ` plus the storage release
`Qs` exactly (`Qs = some (Q − FQ)`), in exact rational arithmetic. -/
theorem C1_conservation_amended {nz ny nx : ℕ} (g : GridData nz ny nx)
    (p : Params (nz * ny * nx)) (hpA : p.A = Amat g) (dt : ℚ)
    (phiPrev : Fin (nz * ny * nx) → FV) (x : Fin (nz * ny * nx) → ℚ)
    (v : ℚ) (l : Fin nz) (r : Fin ny) (k : Fin nx)
    (hs : SolvesStep p dt phiPrev x)
    (hact : activeM p (nod l r k))
    (hnofx : ∀ j, fxhdM p j → p.A (nod l r k) j = 0)
    (hprev : phiPrev (nod l r k) = some v) :
    faceInflow g (provisionalV p x) l r k = -(Qstep p x (nod l r k))
    ∧ QsStep p dt phiPrev x (nod l r k) =
        some (Qstep p x (nod l r k) - p.FQ (nod l r k)) := by
  constructor
  · rw [faceInflow_eq_neg_Arow]
    simp only [Qstep, hpA]
  · exact Qstep_eq_FQ_add_Qs p dt phiPrev x (nod l r k) v hs hact hnofx hprev

/-- C1 witness: the amended conservation identity instantiated on the
two-cell run `pC1` at cell 0 of the first step. -/
theorem C1_conservation_witness :
    faceInflow g2 (provisionalV pC1 (xsC1 0)) 0 0 0 =
      -(Qstep pC1 (xsC1 0) (nod 0 0 0))
    ∧ QsStep pC1 1 (runPhi pC1 xsC1 0) (xsC1 0) (nod 0 0 0) =
        some (Qstep pC1 (xsC1 0) (nod 0 0 0) - pC1.FQ (nod 0 0 0)) := by
  refine C1_conservation_amended g2 pC1 Amat_g2_eq.symm 1
    (runPhi pC1 xsC1 0) (xsC1 0) 0 0 0 0 ?_ ?_ ?_ rfl
  · intro i hi
    revert hi
    fin_cases i <;>
      norm_num [SolvesStep, Mdt, RHSv, CsV, provisionalV, activeM, fxhdM,
        runPhi, fvGet, pC1, xsC1, sum_fin_two]
  · norm_num [activeM, pC1, nod]
  · intro j hj
    revert hj
    fin_cases j <;> norm_num [fxhdM, pC1]

/-- Inverting a common-factor sum is injective in the varying summand. -/
theorem one_div_smul_sum_ne {c a b d : ℚ} (hc : c ≠ 0) (h1 : a + b ≠ 0)
    (h2 : a + d ≠ 0) (h3 : b ≠ d) :
    (1 : ℚ) / (1 / c * a + 1 / c * b) ≠ 1 / (1 / c * a + 1 / c * d) := by
  have e1 : 1 / c * a + 1 / c * b = (a + b) / c := by ring
  have e2 : 1 / c * a + 1 / c * d = (a + d) / c := by ring
  rw [e1, e2, one_div_div, one_div_div]
  intro h
  have hmul := (div_eq_div_iff h1 h2).mp h
  have : b = d := by
    have := mul_left_cancel₀ hc (by linarith [hmul] : c * (a + d) = c * (a + b))
    linarith
  exact h3 this

/-- C5 (code bug): the proxy substituted for the innermost boundary
radius `x[0]` is NOT unused: line 119 pairs `Rx2[:, :, :-1]` — whose
column 0 is `log(xm[0]/x[0])/(2 pi k dz)` — into `Cx`, so the face-0
conductance changes with the proxy, contradicting the comment of line
102 ("has not effect because x[0] is not used") and the claim.  On the
axial grid `x = [0, 2, 4]`, `xm = [1, 3]`, `kx = DZ = 1`, the proxies
`1/5` (the source's `0.1*x[1]`) and `1/10` give different `Cx[0]`, for
every logarithm function with the real logarithm's values being distinct
and positive at the evaluated points. -/
theorem C5_proxy_changes_Cx (lg : ℚ → ℚ) (pi : ℚ) (hpi : pi ≠ 0)
    (h5 : lg 5 ≠ lg 10)
    (hD1 : lg (4 / 3) + lg 5 ≠ 0) (hD2 : lg (4 / 3) + lg 10 ≠ 0) :
    @axialCx 1 1 1 lg pi (fun _ _ _ => false)
        (fun _ _ _ => 1) (fun _ _ _ => 1) ![0, 2, 4] ![1, 3] (1 / 5) 0 0 0 ≠
      @axialCx 1 1 1 lg pi (fun _ _ _ => false)
        (fun _ _ _ => 1) (fun _ _ _ => 1) ![0, 2, 4] ![1, 3] (1 / 10) 0 0 0 := by
  have h2pi : (2 : ℚ) * pi ≠ 0 := mul_ne_zero two_ne_zero hpi
  have e1 : @axialCx 1 1 1 lg pi (fun _ _ _ => false)
      (fun _ _ _ => 1) (fun _ _ _ => 1) ![0, 2, 4] ![1, 3] (1 / 5) 0 0 0 =
      1 / (1 / (2 * pi) * lg (4 / 3) + 1 / (2 * pi) * lg 5) := by
    norm_num [axialCx, axialRx1, axialRx2, axialX, Fin.ext_iff]
  have e2 : @axialCx 1 1 1 lg pi (fun _ _ _ => false)
      (fun _ _ _ => 1) (fun _ _ _ => 1) ![0, 2, 4] ![1, 3] (1 / 10) 0 0 0 =
      1 / (1 / (2 * pi) * lg (4 / 3) + 1 / (2 * pi) * lg 10) := by
    norm_num [axialCx, axialRx1, axialRx2, axialX, Fin.ext_iff]
  rw [e1, e2]
  exact one_div_smul_sum_ne h2pi hD1 hD2 h5

/-- C5 witness: the proxy-dependence theorem instantiated with the
identity as logarithm and `pi = 3`, giving two concretely different
face-0 conductances. -/
theorem C5_proxy_changes_Cx_witness :
    @axialCx 1 1 1 (fun q => q) 3 (fun _ _ _ => false)
        (fun _ _ _ => 1) (fun _ _ _ => 1) ![0, 2, 4] ![1, 3] (1 / 5) 0 0 0 ≠
      @axialCx 1 1 1 (fun q => q) 3 (fun _ _ _ => false)
        (fun _ _ _ => 1) (fun _ _ _ => 1) ![0, 2, 4] ![1, 3] (1 / 10) 0 0 0 :=
  C5_proxy_changes_Cx (fun q => q) 3 (by norm_num) (by norm_num)
    (by norm_num) (by norm_num)

/-- C6 counterexample: shape mismatches in `HI` and `IBOUND` are NOT
detected and the solve runs to completion.  Lines 74-81 only compare
`kx`, `ky`, `kz` and `Ss` against the grid shape; an `HI` of shape
`(1, 1, 1)` ravels to a single entry, which line 158 broadcasts into the
initial head row (`pC1`'s initial head is the constant-0 vector, exactly
the broadcast of that single 0), and an `IBOUND` of shape `(2, 1, 1)`
has the grid's total size 2, so the line-87 reshape yields its raveled
entries unchanged.  No error is raised and no check ever compares these
shapes with the grid's `(1, 1, 2)`. -/
theorem C6_counterexample :
    ((1, 1, 1) : Shape) ≠ ((1, 1, 2) : Shape)
    ∧ ((2, 1, 1) : Shape) ≠ ((1, 1, 2) : Shape)
    ∧ fdm3tExcept (1, 1, 2) (1, 1, 2) (1, 1, 2) (1, 1, 2) (1, 1, 2)
        (1, 1, 2) (1, 1, 1) (2, 1, 1) pC1 xsC1 [0, 1] =
      .ok (fdm3tRun pC1 xsC1 [0, 1]) := by
  refine ⟨?_, ?_, rfl⟩
  · intro h
    have hv := congrArg (fun s : Shape => s.2.2) h
    norm_num at hv
  · intro h
    have hv := congrArg Prod.fst h
    norm_num at hv

/-- C6 (amended): the shape validation of lines 74-81 checks exactly
`kx`, `ky`, `kz`, `Ss` (in that order) against the grid shape, failing
before any computation with an error naming the offending field and both
shapes.  The shapes of `FQ`, `HI` and `IBOUND` are never compared with
the grid's: an `IBOUND` of the grid's total size, an `HI` of that size
or of size 1, and an `FQ` of that size or of size 1 are accepted
whatever their shapes and the solve runs; sizes outside those
constraints only make numpy itself raise mid-computation (the line-87
reshape, the line-158 broadcast, the line-170 broadcast on the first
step), an exception that names no field and compares no shapes. -/
theorem C6_shape_validation_amended {n : ℕ}
    (grS kxS kyS kzS SsS FQS HIS IBS : Shape) (p : Params n)
    (xs : ℕ → Fin n → ℚ) (t : List ℚ) :
    (kxS ≠ grS →
      fdm3tExcept grS kxS kyS kzS SsS FQS HIS IBS p xs t =
        .error (.assertShape ⟨"kx", kxS, grS⟩))
    ∧ (kxS = grS → kyS ≠ grS →
      fdm3tExcept grS kxS kyS kzS SsS FQS HIS IBS p xs t =
        .error (.assertShape ⟨"ky", kyS, grS⟩))
    ∧ (kxS = grS → kyS = grS → kzS ≠ grS →
      fdm3tExcept grS kxS kyS kzS SsS FQS HIS IBS p xs t =
        .error (.assertShape ⟨"kz", kzS, grS⟩))
    ∧ (kxS = grS → kyS = grS → kzS = grS → SsS ≠ grS →
      fdm3tExcept grS kxS kyS kzS SsS FQS HIS IBS p xs t =
        .error (.assertShape ⟨"Ss", SsS, grS⟩))
    ∧ (kxS = grS → kyS = grS → kzS = grS → SsS = grS →
      numel IBS ≠ numel grS →
      fdm3tExcept grS kxS kyS kzS SsS FQS HIS IBS p xs t =
        .error .numpyRaise)
    ∧ (kxS = grS → kyS = grS → kzS = grS → SsS = grS →
      numel IBS = numel grS →
      ¬ (numel HIS = numel grS ∨ numel HIS = 1) →
      fdm3tExcept grS kxS kyS kzS SsS FQS HIS IBS p xs t =
        .error .numpyRaise)
    ∧ (kxS = grS → kyS = grS → kzS = grS → SsS = grS →
      numel IBS = numel grS →
      (numel HIS = numel grS ∨ numel HIS = 1) → 2 ≤ t.length →
      ¬ (numel FQS = numel grS ∨ numel FQS = 1) →
      fdm3tExcept grS kxS kyS kzS SsS FQS HIS IBS p xs t =
        .error .numpyRaise)
    ∧ (kxS = grS → kyS = grS → kzS = grS → SsS = grS →
      numel IBS = numel grS → 1 ≤ t.length →
      (numel HIS = numel grS ∨ numel HIS = 1) →
      (numel FQS = numel grS ∨ numel FQS = 1) →
      fdm3tExcept grS kxS kyS kzS SsS FQS HIS IBS p xs t =
        .ok (fdm3tRun p xs t)) := by
  refine ⟨?_, ?_, ?_, ?_, ?_, ?_, ?_, ?_⟩
  · intro h1
    simp [fdm3tExcept, fdm3tShapeCheck, h1]
  · intro h1 h2
    simp [fdm3tExcept, fdm3tShapeCheck, h1, h2]
  · intro h1 h2 h3
    simp [fdm3tExcept, fdm3tShapeCheck, h1, h2, h3]
  · intro h1 h2 h3 h4
    simp [fdm3tExcept, fdm3tShapeCheck, h1, h2, h3, h4]
  · intro h1 h2 h3 h4 h5
    simp [fdm3tExcept, fdm3tShapeCheck, h1, h2, h3, h4, h5]
  · intro h1 h2 h3 h4 h5 h6
    by_cases ht : t.length = 0
    · simp [fdm3tExcept, fdm3tShapeCheck, h1, h2, h3, h4, h5, ht]
    · simp [fdm3tExcept, fdm3tShapeCheck, h1, h2, h3, h4, h5, ht, h6]
  · intro h1 h2 h3 h4 h5 h6 ht2 h7
    have ht : ¬ t.length = 0 := by omega
    rcases h6 with h6 | h6 <;>
      simp [fdm3tExcept, fdm3tShapeCheck, h1, h2, h3, h4, h5, ht, h6,
        ht2, h7]
  · intro h1 h2 h3 h4 h5 ht1 h6 h7
    have ht : ¬ t.length = 0 := by omega
    rcases h6 with h6 | h6 <;> rcases h7 with h7 | h7 <;>
      simp [fdm3tExcept, fdm3tShapeCheck, h1, h2, h3, h4, h5, ht, h6, h7]

/-- C6 witness: the amended validation behaviour at concrete shapes — a
mismatched `kx` is reported with its name and both shapes; matched `kx`,
`ky`, `kz`, `Ss` let the solve run despite `HI` of the mismatched but
broadcastable shape `(1, 1, 1)` and `IBOUND` of the mismatched same-size
shape `(2, 1, 1)`; and an `HI` of the incompatible shape `(3, 3, 3)`
makes the run die with a numpy error that names no field. -/
theorem C6_shape_validation_witness :
    fdm3tExcept (1, 1, 2) (9, 9, 9) (1, 1, 2) (1, 1, 2) (1, 1, 2)
        (1, 1, 2) (1, 1, 2) (1, 1, 2) pC1 xsC1 [0, 1] =
      .error (.assertShape ⟨"kx", (9, 9, 9), (1, 1, 2)⟩)
    ∧ fdm3tExcept (1, 1, 2) (1, 1, 2) (1, 1, 2) (1, 1, 2) (1, 1, 2)
        (1, 1, 2) (1, 1, 1) (2, 1, 1) pC1 xsC1 [0, 1] =
      .ok (fdm3tRun pC1 xsC1 [0, 1])
    ∧ fdm3tExcept (1, 1, 2) (1, 1, 2) (1, 1, 2) (1, 1, 2) (1, 1, 2)
        (1, 1, 2) (3, 3, 3) (1, 1, 2) pC1 xsC1 [0, 1] =
      .error .numpyRaise := by
  refine ⟨?_, ?_, ?_⟩
  · refine (C6_shape_validation_amended (1, 1, 2) (9, 9, 9) (1, 1, 2)
      (1, 1, 2) (1, 1, 2) (1, 1, 2) (1, 1, 2) (1, 1, 2) pC1 xsC1 [0, 1]).1 ?_
    intro h
    have hv := congrArg Prod.fst h
    norm_num at hv
  · exact (C6_shape_validation_amended (1, 1, 2) (1, 1, 2) (1, 1, 2)
      (1, 1, 2) (1, 1, 2) (1, 1, 2) (1, 1, 1) (2, 1, 1) pC1 xsC1
      [0, 1]).2.2.2.2.2.2.2 rfl rfl rfl rfl rfl (by norm_num)
      (Or.inr rfl) (Or.inl rfl)
  · exact (C6_shape_validation_amended (1, 1, 2) (1, 1, 2) (1, 1, 2)
      (1, 1, 2) (1, 1, 2) (1, 1, 2) (3, 3, 3) (1, 1, 2) pC1 xsC1
      [0, 1]).2.2.2.2.2.1 rfl rfl rfl rfl rfl (by decide)

/-- C7 counterexample: with a decreasing time vector `[0, -1]` the solver
raises nothing — the shape checks are the only validation — and the one
step executes with `dt = -1`: the storage-release output of that step is
`-Cs/dt * (x - prev) = -(1/(-1)) * (7 - 2) = 5`. -/
theorem C7_counterexample :
    fdm3tExcept (1, 1, 1) (1, 1, 1) (1, 1, 1) (1, 1, 1) (1, 1, 1)
        (1, 1, 1) (1, 1, 1) (1, 1, 1) pC7 xsC7 [0, -1] =
      .ok (fdm3tRun pC7 xsC7 [0, -1])
    ∧ tSteps [0, -1] = [-1]
    ∧ (fdm3tRun pC7 xsC7 [0, -1]).Qs.length = 1
    ∧ ((fdm3tRun pC7 xsC7 [0, -1]).Qs.headI) 0 = some 5 := by
  refine ⟨rfl, by norm_num [tSteps], ?_, ?_⟩
  · rfl
  · have hQs : (fdm3tRun pC7 xsC7 [0, -1]).Qs =
        [QsStep pC7 (-1) (runPhi pC7 xsC7 0) (xsC7 0)] := by
      show (tSteps [0, -1]).mapIdx
        (fun idt dt => QsStep pC7 dt (runPhi pC7 xsC7 idt) (xsC7 idt)) = _
      norm_num [tSteps, List.mapIdx_cons]
    rw [hQs]
    show QsStep pC7 (-1) (runPhi pC7 xsC7 0) (xsC7 0) 0 = some 5
    norm_num [QsStep, CsV, provisionalV, activeM, runPhi, fvMul, fvSub,
      pC7, xsC7]

/-- C7 (amended): `fdm3t` performs no validation of the time vector at
all: for every `t` with at least one entry (the empty vector instead
dies with a numpy `ValueError` at the line-148 allocation
`np.zeros((len(t) - 1, gr.nod))`, not a validation error) and matching
field shapes, the call returns normally, with one executed step per
consecutive pair of `t` — non-positive step durations included. -/
theorem C7_no_time_validation_amended {n : ℕ} (grS : Shape) (p : Params n)
    (xs : ℕ → Fin n → ℚ) (t : List ℚ) (ht : 1 ≤ t.length) :
    fdm3tExcept grS grS grS grS grS grS grS grS p xs t =
      .ok (fdm3tRun p xs t)
    ∧ (fdm3tRun p xs t).Qs.length = t.length - 1 := by
  constructor
  · have ht0 : ¬ t.length = 0 := by omega
    simp [fdm3tExcept, fdm3tShapeCheck, ht0]
  · show ((tSteps t).mapIdx
        (fun idt dt => QsStep p dt (runPhi p xs idt) (xs idt))).length =
      t.length - 1
    rw [List.length_mapIdx]
    exact tSteps_length t

/-- C7 witness: the amended no-validation behaviour on the decreasing
vector `[0, -1]`. -/
theorem C7_no_time_validation_witness :
    fdm3tExcept (1, 1, 1) (1, 1, 1) (1, 1, 1) (1, 1, 1) (1, 1, 1)
        (1, 1, 1) (1, 1, 1) (1, 1, 1) pC7 xsC7 [0, -1] =
      .ok (fdm3tRun pC7 xsC7 [0, -1])
    ∧ (fdm3tRun pC7 xsC7 [0, -1]).Qs.length = ([(0 : ℚ), -1].length) - 1 :=
  C7_no_time_validation_amended (1, 1, 1) pC7 xsC7 [0, -1] (by norm_num)

/-- C8 counterexample: the head at time `2dt` depends on the step
partition.  On the decay problem `pC8` (cell 0 fixed at `0`, cell 1
active from `1`, unit storage and conductance, `epsilon = 1`), the exact
solves give `Φ(2) = 1/3` for `t = [0, 2]` but `Φ(2) = 1/4` for
`t = [0, 1, 2]` — one implicit step of `2dt` is not two steps of `dt`. -/
theorem C8_counterexample :
    tSteps [0, 2] = [2] ∧ tSteps [0, 1, 2] = [1, 1]
    ∧ SolvesStep pC8 2 (runPhi pC8 xsC8a 0) (xsC8a 0)
    ∧ SolvesStep pC8 1 (runPhi pC8 xsC8b 0) (xsC8b 0)
    ∧ SolvesStep pC8 1 (runPhi pC8 xsC8b 1) (xsC8b 1)
    ∧ runPhi pC8 xsC8a 1 1 = some (1 / 3)
    ∧ runPhi pC8 xsC8b 2 1 = some (1 / 4)
    ∧ runPhi pC8 xsC8a 1 1 ≠ runPhi pC8 xsC8b 2 1 := by
  refine ⟨by norm_num [tSteps], by norm_num [tSteps], ?_, ?_, ?_, ?_, ?_, ?_⟩
  · intro i hi
    revert hi
    fin_cases i <;>
      norm_num [SolvesStep, Mdt, RHSv, CsV, provisionalV, activeM, fxhdM,
        runPhi, fvGet, pC8, xsC8a, sum_fin_two]
  · intro i hi
    revert hi
    fin_cases i <;>
      norm_num [SolvesStep, Mdt, RHSv, CsV, provisionalV, activeM, fxhdM,
        runPhi, fvGet, pC8, xsC8b, sum_fin_two]
  · intro i hi
    revert hi
    fin_cases i <;>
      norm_num [SolvesStep, Mdt, RHSv, CsV, provisionalV, activeM, fxhdM,
        runPhi, finalizeStep, fvGet, fvAdd, fvSub, fvDiv, pC8, xsC8b,
        sum_fin_two]
  · norm_num [runPhi, finalizeStep, provisionalV, activeM, fxhdM, fvAdd,
      fvSub, fvDiv, pC8, xsC8a]
  · norm_num [runPhi, finalizeStep, provisionalV, activeM, fxhdM, fvAdd,
      fvSub, fvDiv, pC8, xsC8b]
  · have e1 : runPhi pC8 xsC8a 1 1 = some (1 / 3) := by
      norm_num [runPhi, finalizeStep, provisionalV, activeM, fxhdM, fvAdd,
        fvSub, fvDiv, pC8, xsC8a]
    have e2 : runPhi pC8 xsC8b 2 1 = some (1 / 4) := by
      norm_num [runPhi, finalizeStep, provisionalV, activeM, fxhdM, fvAdd,
        fvSub, fvDiv, pC8, xsC8b]
    rw [e1, e2]
    intro h
    have := Option.some.inj h
    norm_num at this

/-- C8 (amended): with zero storage (`Ss = 0`), full implicitness
(`epsilon = 1`), exact per-step solves, and a uniquely solvable steady
active system, the head after one step over the whole interval equals
the head after two partitioned steps, at every cell: every step then
solves the same state-independent steady system, so the partition of the
interval is irrelevant. -/
theorem C8_partition_amended {n : ℕ} (p : Params n)
    (xsA xsB : ℕ → Fin n → ℚ) (dtA dtB1 dtB2 : ℚ)
    (hss : ∀ i, p.SsV i = 0) (heps : p.eps = 1)
    (hA : SolvesStep p dtA (runPhi p xsA 0) (xsA 0))
    (hB1 : SolvesStep p dtB1 (runPhi p xsB 0) (xsB 0))
    (hB2 : SolvesStep p dtB2 (runPhi p xsB 1) (xsB 1))
    (huniq : ∀ x y : Fin n → ℚ,
      (∀ i, activeM p i →
        (∑ j, (if activeM p j then p.A i j * x j else 0)) =
          p.FQ i - ∑ j, (if fxhdM p j then p.A i j * p.HI j else 0)) →
      (∀ i, activeM p i →
        (∑ j, (if activeM p j then p.A i j * y j else 0)) =
          p.FQ i - ∑ j, (if fxhdM p j then p.A i j * p.HI j else 0)) →
      ∀ i, activeM p i → x i = y i) :
    ∀ i, runPhi p xsA 1 i = runPhi p xsB 2 i := by
  intro i
  by_cases hact : activeM p i
  · rw [runPhi_active_eps_one p xsA heps 0 i hact,
      runPhi_active_eps_one p xsB heps 1 i hact]
    have sA := (solvesStep_steady p hss dtA xsA 0 (xsA 0)).mp hA
    have sB2 := (solvesStep_steady p hss dtB2 xsB 1 (xsB 1)).mp hB2
    exact congrArg some (huniq (xsA 0) (xsB 1) sA sB2 i hact)
  · by_cases hfx : fxhdM p i
    · rw [runPhi_fxhd p xsA 1 i hfx, runPhi_fxhd p xsB 2 i hfx]
    · have hin : inactM p i := by
        unfold activeM at hact
        unfold fxhdM at hfx
        unfold inactM
        omega
      rw [runPhi_inact p xsA 0 i hin, runPhi_inact p xsB 1 i hin]

/-- C8 witness: on the zero-storage problem `pC8W` every step solves
`1 * x = 3 + 5 = 8`, and the heads after one step and after two steps
agree at both cells. -/
theorem C8_partition_witness :
    runPhi pC8W xsC8W 1 0 = runPhi pC8W xsC8W 2 0
    ∧ runPhi pC8W xsC8W 1 1 = runPhi pC8W xsC8W 2 1 := by
  have hss : ∀ i, pC8W.SsV i = 0 := by
    intro i
    fin_cases i <;> norm_num [pC8W]
  have hsolve : ∀ m : ℕ, SolvesStep pC8W 1 (runPhi pC8W xsC8W m) (xsC8W m) := by
    intro m
    have hfx0 : runPhi pC8W xsC8W m 0 = some 5 := by
      rw [runPhi_fxhd pC8W xsC8W m 0 (by norm_num [fxhdM, pC8W])]
      norm_num [pC8W]
    intro i hi
    revert hi
    fin_cases i <;>
      norm_num [SolvesStep, Mdt, RHSv, CsV, provisionalV, activeM, fxhdM,
        hfx0, fvGet, xsC8W, sum_fin_two,
        show pC8W.A = ![![1, -1], ![-1, 1]] from rfl,
        show pC8W.SsV = ![0, 0] from rfl,
        show pC8W.FQ = ![0, 3] from rfl,
        show pC8W.HI = ![5, 0] from rfl,
        show pC8W.IBOUND = ![-1, 1] from rfl,
        show pC8W.eps = 1 from rfl]
  have huniq : ∀ x y : Fin (1 * 1 * 2) → ℚ,
      (∀ i, activeM pC8W i →
        (∑ j, (if activeM pC8W j then pC8W.A i j * x j else 0)) =
          pC8W.FQ i - ∑ j, (if fxhdM pC8W j then pC8W.A i j * pC8W.HI j else 0)) →
      (∀ i, activeM pC8W i →
        (∑ j, (if activeM pC8W j then pC8W.A i j * y j else 0)) =
          pC8W.FQ i - ∑ j, (if fxhdM pC8W j then pC8W.A i j * pC8W.HI j else 0)) →
      ∀ i, activeM pC8W i → x i = y i := by
    intro x y hx hy i
    have hx1 := hx 1 (by norm_num [activeM, pC8W])
    have hy1 := hy 1 (by norm_num [activeM, pC8W])
    rw [sum_fin_two, sum_fin_two] at hx1 hy1
    norm_num [activeM, fxhdM, pC8W, sum_fin_two] at hx1 hy1
    revert i
    intro i hi
    revert hi
    fin_cases i
    · intro hi
      exact absurd hi (by norm_num [activeM, pC8W])
    · intro hi
      show x 1 = y 1
      rw [hx1, hy1]
  exact ⟨C8_partition_amended pC8W xsC8W xsC8W 1 1 1 hss rfl (hsolve 0)
      (hsolve 0) (hsolve 1) huniq 0,
    C8_partition_amended pC8W xsC8W xsC8W 1 1 1 hss rfl (hsolve 0)
      (hsolve 0) (hsolve 1) huniq 1⟩

/-- C9 (confirmed): the `epsilon` parameter of `Fdm3t.__init__` has no
effect on the stored simulation output: the constructor always invokes
the solver with `epsilon = 1.0` (line 283), so two constructions
differing only in `epsilon` store identical `self.out`. -/
theorem C9_epsilon_ignored {n : ℕ} (base : BaseData n)
    (xs : ℕ → Fin n → ℚ) (t : List ℚ) (e1 e2 : ℚ) :
    Fdm3tInit base xs t e1 = Fdm3tInit base xs t e2
    ∧ Fdm3tInit base xs t e1 =
        fdm3tRun ⟨base.A, base.SsV, base.FQ, base.HI, base.IBOUND, 1⟩ xs t :=
  ⟨rfl, rfl⟩

/-- C10 (confirmed): a completed `fdm3t` call mutates exactly the
caller's conductivity arrays: every entry below `1e-20` becomes `1e-20`
and every other entry is untouched; a single shared `kxyz` array is
clamped once for all three axes (the three in-place passes collapse to
one, by idempotence); `Ss`, `FQ`, `HI`, `IBOUND` and `t` are returned
with their contents unchanged. -/
theorem C10_inplace_clamping {m : ℕ} (c : CallerArrays m) :
    (fdm3tPost c).Ss = c.Ss ∧ (fdm3tPost c).FQ = c.FQ
    ∧ (fdm3tPost c).HI = c.HI ∧ (fdm3tPost c).IBOUND = c.IBOUND
    ∧ (fdm3tPost c).t = c.t
    ∧ (∀ kx ky kz, c.kxyz = .ktriple kx ky kz →
        (fdm3tPost c).kxyz = .ktriple (clampK kx) (clampK ky) (clampK kz))
    ∧ (∀ k, c.kxyz = .ksingle k →
        (fdm3tPost c).kxyz = .ksingle (clampK k))
    ∧ (∀ (k : Fin m → ℚ) (i : Fin m),
        (k i < kfloor → clampK k i = kfloor)
        ∧ (¬k i < kfloor → clampK k i = k i)) := by
  have hidem : ∀ k : Fin m → ℚ, clampK (clampK k) = clampK k := by
    intro k
    funext i
    by_cases h : k i < kfloor
    · simp [clampK, h]
    · simp [clampK, h]
  refine ⟨rfl, rfl, rfl, rfl, rfl, ?_, ?_, ?_⟩
  · intro kx ky kz h
    show clampEffect c.kxyz = _
    rw [h]
    rfl
  · intro k h
    show clampEffect c.kxyz = _
    rw [h]
    show KxyzV.ksingle (clampK (clampK (clampK k))) = _
    rw [hidem, hidem]
  · intro k i
    constructor
    · intro h
      simp [clampK, h]
    · intro h
      simp [clampK, h]

/-- C10 witness: clamping the shared two-entry array `[0, 1]`: the entry
`0` (below the floor) becomes `1e-20`, the entry `1` is unchanged, and
the other caller arrays come back untouched. -/
theorem C10_inplace_clamping_witness :
    (fdm3tPost cArr).Ss = cArr.Ss
    ∧ (fdm3tPost cArr).kxyz = .ksingle (clampK ![0, 1])
    ∧ clampK ![0, 1] 0 = kfloor ∧ clampK ![0, 1] 1 = 1 := by
  refine ⟨(C10_inplace_clamping cArr).1,
    (C10_inplace_clamping cArr).2.2.2.2.2.2.1 ![0, 1] rfl, ?_, ?_⟩
  · refine ((C10_inplace_clamping cArr).2.2.2.2.2.2.2 ![0, 1] 0).1 ?_
    norm_num [kfloor]
  · refine ((C10_inplace_clamping cArr).2.2.2.2.2.2.2 ![0, 1] 1).2 ?_
    norm_num [kfloor]

end Fdm3tModel
